import Mathlib

/-!
Verification development for the flash-narrative KPI/analysis engine
(`src/analysis.py`): a shallow embedding of the record data model, the
keyword sentiment classifier, the theme classifier, the brand-mention
detector, the keyword extractor, and the `compute_kpis` aggregator,
together with proofs of the specification's claims about them.

Modelling conventions: Python field values that the engine touches are
either integers, strings, or the pandas NaN marker (`Val`); a missing
dictionary key is `Option.none`; Python floats produced by the ratio
divisions are modelled as exact rationals `ℚ`; a Python exception
escaping `compute_kpis` is `Except.error`; the empty-dict return for an
empty input collection is `Option.none` in the result.
-/

/-- A Python value stored in a mention-record field: an integer, a string,
or the float NaN that pandas uses for missing tabular cells. -/
inductive Val where
  | vInt : Int → Val
  | vStr : String → Val
  | vNaN : Val
deriving DecidableEq, Repr

/-- Numeric value of a nonempty list of decimal digit characters. -/
def digitsVal (l : List Char) : Option Nat :=
  if l = [] then none
  else if l.all Char.isDigit then
    some (l.foldl (fun a c => a * 10 + (c.toNat - 48)) 0)
  else none

/-- Python `int(s)` on a string: optional surrounding blanks, an optional
sign, then decimal digits; anything else raises `ValueError` (here `none`). -/
def parseIntStr (s : String) : Option Int :=
  let t := ((s.data.dropWhile (· = ' ')).reverse.dropWhile (· = ' ')).reverse
  match t with
  | '-' :: rest => (digitsVal rest).map (fun n => -(n : Int))
  | '+' :: rest => (digitsVal rest).map (fun n => (n : Int))
  | _ => (digitsVal t).map (fun n => (n : Int))

/-- Python `int(v)`: identity on integers, string parsing on strings,
`ValueError` (`none`) on NaN. -/
def pyInt : Val → Option Int
  | .vInt n => some n
  | .vStr s => parseIntStr s
  | .vNaN => none

/-- Python `pd.isna` restricted to the modelled values. -/
def pdIsna : Val → Bool
  | .vNaN => true
  | _ => false

/-- Whether `pat` occurs at the head of `text` (`pat` is a leading segment). -/
def subAt : List Char → List Char → Bool
  | [], _ => true
  | _ :: _, [] => false
  | p :: ps, c :: cs => p = c && subAt ps cs

/-- Whether `pat` occurs somewhere in `text` as a contiguous segment. -/
def subSearch (pat : List Char) : List Char → Bool
  | [] => subAt pat []
  | c :: cs => subAt pat (c :: cs) || subSearch pat cs

/-- Python `pat in s` on strings: contiguous substring containment. -/
def pyIn (pat s : String) : Bool := subSearch pat.data s.data

/-- Python `str.lower()` on the ASCII texts the engine handles:
characterwise lowercasing (defined over the character list so that it
evaluates inside the kernel). -/
def toLowerStr (s : String) : String := String.mk (s.data.map Char.toLower)

/-- A regex word character for `\b`: ASCII alphanumeric or underscore
(the engine's keywords and brand names are ASCII). -/
def isWordChar (c : Char) : Bool := c.isAlphanum || c = '_'

/-- Word-character status of the character at one side of a position;
`none` (outside the text) counts as non-word. -/
def wordStatus : Option Char → Bool
  | none => false
  | some c => isWordChar c

/-- If `kw` is a leading segment of `text`, the character right after it
(`some none` at the end of the text); otherwise `none`. -/
def afterPfx : List Char → List Char → Option (Option Char)
  | [], [] => some none
  | [], c :: _ => some (some c)
  | _ :: _, [] => none
  | k :: ks, c :: cs => if k = c then afterPfx ks cs else none

/-- Whether the regex `\b<kw>\b` (with `kw` taken literally) matches at the
current position, `prev` being the character just before that position. -/
def matchHere : List Char → Option Char → List Char → Bool
  | [], prev, text => wordStatus prev != wordStatus text.head?
  | k :: ks, prev, text =>
    match afterPfx (k :: ks) text with
    | none => false
    | some after =>
      (wordStatus prev != isWordChar k)
        && (isWordChar (ks.foldl (fun _ c => c) k) != wordStatus after)

/-- Whether `\b<kw>\b` matches at some position of the remaining text,
`prev` being the character just before it. -/
def searchFrom (kw : List Char) (prev : Option Char) : List Char → Bool
  | [] => matchHere kw prev []
  | c :: rest => matchHere kw prev (c :: rest) || searchFrom kw (some c) rest

/-- Python `re.search(r'\b' + re.escape(kw) + r'\b', text)` viewed as a
Boolean: a whole-word, literal occurrence of `kw` in `text`. -/
def wordMatch (kw text : String) : Bool := searchFrom kw.data none text.data

/-- The positive keyword list of `analyze_sentiment_keywords`. -/
def positive_kws : List String :=
  ["good", "great", "excellent", "positive", "love", "awesome", "best",
   "happy", "like", "amazing", "superb", "fantastic", "recommend", "perfect",
   "honoured", "lauds", "empower", "support", "champions", "wins", "upgrades",
   "successful", "oversubscribed", "confidence"]

/-- The negative keyword list of `analyze_sentiment_keywords`. -/
def negative_kws : List String :=
  ["bad", "poor", "terrible", "negative", "hate", "awful", "worst", "sad",
   "dislike", "broken", "fail", "issue", "problem", "disappointed", "avoid",
   "scam", "fraud", "downtime", "glitches", "fume", "arrest", "rift",
   "vanished", "failed", "undersubscribed", "loss"]

/-- The anger keyword list of `analyze_sentiment_keywords`. -/
def anger_kws : List String :=
  ["angry", "furious", "rage", "mad", "outrage", "pissed", "fuming", "livid",
   "worst!"]

/-- The appreciation keyword list of `analyze_sentiment_keywords`. -/
def appreciation_kws : List String :=
  ["thank", "appreciate", "grateful", "thanks", "kudos", "cheers", "props",
   "helpful", "honoured", "lauds", "legacy", "honoring"]

/-- The mixed-signal connective list of `analyze_sentiment_keywords`. -/
def mixed_kws : List String :=
  ["but", "however", "although", "yet", "still", "despite"]

/-- Number of keywords of `kws` that occur whole-word in `tl`
(`sum(1 for k in kws if re.search(...))`). -/
def kwCount (kws : List String) (tl : String) : Nat :=
  (kws.filter (fun k => wordMatch k tl)).length

/-- `analyze_sentiment_keywords` of `src/analysis.py`: keyword sentiment of a
text, a missing text behaving as the empty string (`if not text`). -/
def analyze_sentiment_keywords (text : Option String) : String :=
  match text with
  | none => "neutral"
  | some t =>
    if t = "" then "neutral"
    else
      let text_lower := toLowerStr t
      let pos_count := kwCount positive_kws text_lower
      let neg_count := kwCount negative_kws text_lower
      let anger_count := kwCount anger_kws text_lower
      let app_count := kwCount appreciation_kws text_lower
      let has_mixed := mixed_kws.any (fun k => wordMatch k text_lower)
      if anger_count > 0 then "anger"
      else if (pos_count > 0 && neg_count > 0)
          || (has_mixed && (pos_count > 0 || neg_count > 0)) then "mixed"
      else if neg_count > 0 then "negative"
      else if pos_count > 0 then "positive"
      else if app_count > 0 then "appreciation"
      else "neutral"

/-- The ordered theme rule table of the thematic-analysis cascade in
`compute_kpis`: label and substring keywords, checked first match wins. -/
def themeRules : List (String × List String) :=
  [("CSR/ESG", ["csr", "esg", "donation", "community", "foundation",
                "initiative"]),
   ("Corporate", ["ceo", "gmd", "profit", "results", "acquisition",
                  "corporate", "raise", "capital", "bond"]),
   ("Partnership/Sponsorship", ["partner", "sponsorship", "marathon"]),
   ("Product/Service", ["app", "loan", "card", "customer service", "downtime",
                        "glitch", "e-channel", "transfer"]),
   ("Legal/Risk", ["fraud", "cbn", "efcc", "fine", "court", "scam",
                   "allegation", "rift"])]

/-- The thematic-analysis cascade of `compute_kpis`, lines 106-117 of
`src/analysis.py`: the elif chain over `text_lower`. -/
def classifyTheme (text_lower : String) : String :=
  if (themeRules.get! 0).2.any (fun kw => pyIn kw text_lower) then "CSR/ESG"
  else if (themeRules.get! 1).2.any (fun kw => pyIn kw text_lower) then "Corporate"
  else if (themeRules.get! 2).2.any (fun kw => pyIn kw text_lower) then "Partnership/Sponsorship"
  else if (themeRules.get! 3).2.any (fun kw => pyIn kw text_lower) then "Product/Service"
  else if (themeRules.get! 4).2.any (fun kw => pyIn kw text_lower) then "Legal/Risk"
  else "General News"

/-- A mention record: the engine's input fields plus the three derived
fields it writes (`sentiment`, `theme`, `mentioned_brands`); `extra` stands
for every other key of the Python dict, which the engine never touches. -/
structure Record where
  text : Option String
  source : Option String
  likes : Option Val
  comments : Option Val
  reach : Option Val
  authority : Option Val
  sentiment : Option String
  theme : Option String
  mentioned_brands : Option (List String)
  extra : List (String × Val)
deriving DecidableEq, Repr

/-- A record with every field absent, for building concrete inputs. -/
def emptyRec : Record :=
  ⟨none, none, none, none, none, none, none, none, none, []⟩

/-- The brand-mention detector of `compute_kpis`, lines 121-126: the set of
configured brand names occurring whole-word in the lowercased text, as a
duplicate-free list. -/
def mentionedBrands (all_brands_list : List String) (text_lower : String) :
    List String :=
  (all_brands_list.filter (fun b => wordMatch (toLowerStr b) text_lower)).dedup

/-- One iteration of the main analysis loop of `compute_kpis` (lines
96-129): write `sentiment`, `theme` and `mentioned_brands` on the record. -/
def enrichRecord (brand : String) (competitors : List String) (r : Record) :
    Record :=
  let text_lower := toLowerStr (r.text.getD "")
  { r with
    sentiment := some (analyze_sentiment_keywords r.text),
    theme := some (classifyTheme text_lower),
    mentioned_brands :=
      some (mentionedBrands (brand :: competitors) text_lower) }

/-- Add one occurrence of key `k` to an insertion-ordered counter
(`collections.Counter` update by 1). -/
def bump (k : String) : List (String × Nat) → List (String × Nat)
  | [] => [(k, 1)]
  | p :: rest => if p.1 = k then (p.1, p.2 + 1) :: rest else p :: bump k rest

/-- Add `n` occurrences of key `k` to an insertion-ordered counter
(`combined_freq[key] += freq`). -/
def bumpBy (k : String) (n : Nat) : List (String × Nat) → List (String × Nat)
  | [] => [(k, n)]
  | p :: rest => if p.1 = k then (p.1, p.2 + n) :: rest else p :: bumpBy k n rest

/-- `collections.Counter(l)` as an insertion-ordered association list. -/
def counterOf (l : List String) : List (String × Nat) :=
  l.foldl (fun acc k => bump k acc) []

/-- `Counter[k]`: the stored count of `k`, 0 when `k` is not a key. -/
def lookupCount (c : List (String × Nat)) (k : String) : Nat :=
  match c.find? (fun p => p.1 = k) with
  | some p => p.2
  | none => 0

/-- `sum(counter.values())`. -/
def sumValues (c : List (String × Nat)) : Nat := (c.map Prod.snd).sum

/-- Stable insertion into a list sorted by descending count: the new pair
goes before the first strictly smaller count, after equal ones seen later. -/
def insSorted (p : String × Nat) : List (String × Nat) → List (String × Nat)
  | [] => [p]
  | q :: rest => if q.2 ≤ p.2 then p :: q :: rest else q :: insSorted p rest

/-- Stable sort by descending count, as Python's
`sorted(items, key=count, reverse=True)`. -/
def sortDesc : List (String × Nat) → List (String × Nat)
  | [] => []
  | p :: rest => insSorted p (sortDesc rest)

/-- `Counter.most_common(n)`: the `n` highest-count pairs, counts
descending, ties in insertion order. -/
def most_common (n : Nat) (c : List (String × Nat)) : List (String × Nat) :=
  (sortDesc c).take n

/-- Accumulator-based splitting of a character list into maximal
alphanumeric runs; `cur` holds the pending token reversed. -/
def tokenizeAux : List Char → List Char → List String
  | cur, [] => if cur.isEmpty then [] else [String.mk cur.reverse]
  | cur, c :: rest =>
    if c.isAlphanum then tokenizeAux (c :: cur) rest
    else if cur.isEmpty then tokenizeAux [] rest
    else String.mk cur.reverse :: tokenizeAux [] rest

/-- Model of `nltk.word_tokenize` adequate for the engine's use of it: the
maximal alphanumeric runs of the text, in order (punctuation and blanks
separate tokens; the engine keeps only all-alphabetic tokens afterwards, so
the treatment of punctuation-bearing tokens is immaterial here). -/
def wordTokenize (s : String) : List String := tokenizeAux [] s.data

/-- The web/social noise words added to the NLTK stopword set at module
load (`stop_words.update([...])` in `src/analysis.py`). -/
def noise_stop : List String :=
  ["com", "www", "http", "https", "co", "uk", "amp", "rt", "via"]

/-- The generic bank words added to the dynamic stopword set inside
`extract_keywords`. -/
def generic_stop : List String :=
  ["bank", "plc", "ltd", "group", "holdings", "zenith", "access", "gtco",
   "first", "cbn"]

/-- A small sample standing for `nltk.corpus.stopwords.words('english')`
(external corpus data, not part of the repository) in concrete instances;
the theorems quantify over the base stopword list. -/
def englishStopSample : List String :=
  ["the", "is", "in", "and", "to", "of", "a", "for", "on", "with", "our"]

/-- The contiguous token pairs of a token sequence, as counted by
`BigramCollocationFinder.from_words`. -/
def bigramsOf : List String → List (String × String)
  | [] => []
  | [_] => []
  | a :: b :: rest => (a, b) :: bigramsOf (b :: rest)

/-- The dynamic stopword set of `extract_keywords`: the module-level set
(NLTK English stopwords plus web noise) plus the lowercased brand and
competitor names plus generic bank words. -/
def dynamicStop (base_stop : List String) (brand : String)
    (competitors : List String) : List String :=
  (base_stop ++ noise_stop)
    ++ (toLowerStr brand :: competitors.map toLowerStr) ++ generic_stop

/-- The surviving tokens of `extract_keywords`: tokens of the lowercased
corpus of length > 2, all-alphabetic, not in the dynamic stopword set. -/
def filteredTokensOf (base_stop : List String) (all_text : String)
    (brand : String) (competitors : List String) : List String :=
  (wordTokenize (toLowerStr all_text)).filter (fun t =>
    2 < t.length && t.data.all Char.isAlpha
      && !((dynamicStop base_stop brand competitors).contains t))

/-- `extract_keywords` of `src/analysis.py`. `base_stop` stands for the
NLTK English stopword corpus that the module loads at startup; the rest is
translated directly: lowercase, tokenize, filter tokens (length > 2,
alphabetic, not stopworded), count unigrams, count contiguous bigrams
keeping only those with frequency ≥ 2, merge, return the top 10. -/
def extract_keywords (base_stop : List String) (all_text : String)
    (brand : String) (competitors : List String) : List (String × Nat) :=
  let filtered_tokens := filteredTokensOf base_stop all_text brand competitors
  let unigram_freq := counterOf filtered_tokens
  let bigram_freq :=
    (counterOf ((bigramsOf filtered_tokens).map
      (fun p => p.1 ++ " " ++ p.2))).filter (fun p => 2 ≤ p.2)
  let combined_freq :=
    bigram_freq.foldl (fun acc p => bumpBy p.1 p.2 acc) unigram_freq
  most_common 10 combined_freq

/-- The KPI summary returned by `compute_kpis` for a nonempty collection. -/
structure Summary where
  sentiment_ratio : List (String × ℚ)
  theme_ratio : List (String × ℚ)
  sov : List ℚ
  mis : Option Int
  mpi : ℚ
  engagement_rate : ℚ
  reach : Int
  all_brands : List String
  analyzed_data : List Record
deriving DecidableEq, Repr

deriving instance DecidableEq for Except

/-- Whether a record's authority field is anything but a string value
(strings are the one shape the MIS sum cannot add to an integer). -/
def authorityNotStr (r : Record) : Bool :=
  match r.authority with
  | some (Val.vStr _) => false
  | _ => true

/-- One addition of Python's `sum` over authority values: integers add,
NaN poisons the running sum to NaN (`none`), a string raises `TypeError`. -/
def misAdd : Option Int → Val → Except Unit (Option Int)
  | acc, .vInt n => .ok (acc.map (fun a => a + n))
  | _, .vStr _ => .error ()
  | _, .vNaN => .ok none

/-- `sum(...)` over the authority values of favorably-classified records:
left fold from 0, propagating the first `TypeError`. -/
def misSum (vals : List Val) : Except Unit (Option Int) :=
  vals.foldlM misAdd (some 0)

/-- The fixed social-platform markers of the engagement calculation. -/
def social_sources : List String :=
  ["reddit.com", "fb", "ig", "threads", "twitter", "x"]

/-- Whether a record's source contains one of the social markers
(`any(s in item.get('source','').lower() for s in social_sources)`). -/
def isSocial (r : Record) : Bool :=
  social_sources.any (fun s => pyIn s (toLowerStr (r.source.getD "")))

/-- One iteration of the safe engagement loop: on a social record whose
likes and comments both coerce to integers, add their sum and count the
record; a coercion failure leaves both totals untouched (`continue`). -/
def engStep (acc : Int × Nat) (r : Record) : Int × Nat :=
  if isSocial r then
    match pyInt (r.likes.getD (.vInt 0)) with
    | none => acc
    | some likes =>
      match pyInt (r.comments.getD (.vInt 0)) with
      | none => acc
      | some comments => (acc.1 + (likes + comments), acc.2 + 1)
  else acc

/-- One iteration of the safe reach loop: NaN is downgraded to 0 first,
then a failed integer coercion is skipped (`continue`). -/
def reachStep (acc : Int) (r : Record) : Int :=
  let reach_val := r.reach.getD (.vInt 0)
  let reach_val' := if pdIsna reach_val then Val.vInt 0 else reach_val
  match pyInt reach_val' with
  | some n => acc + n
  | none => acc

/-- The `tones` list accumulated by the main loop: the sentiment written
on each record, in order. -/
def tonesOf (analyzed : List Record) : List String :=
  analyzed.map (fun r => r.sentiment.getD "")

/-- The `themes` list accumulated by the main loop. -/
def themesOf (analyzed : List Record) : List String :=
  analyzed.map (fun r => r.theme.getD "")

/-- Every per-record brand appearance fed into `brand_counts`: one entry
per (record, mentioned brand) pair. -/
def brandAppearances (analyzed : List Record) : List String :=
  analyzed.flatMap (fun r => r.mentioned_brands.getD [])

/-- The authority values Python's `sum` walks for the MIS: authority
(default 5) of every record whose written sentiment is favorable. -/
def misVals (analyzed : List Record) : List Val :=
  (analyzed.filter (fun r =>
    r.sentiment.getD "" = "positive"
      || r.sentiment.getD "" = "appreciation")).map
    (fun r => r.authority.getD (.vInt 5))

/-- Label counts turned into percentages of `total`:
`{label: count / total * 100}`. -/
def ratioList (c : List (String × Nat)) (total : Nat) : List (String × ℚ) :=
  c.map (fun p => (p.1, (p.2 : ℚ) / (total : ℚ) * 100))

/-- How many records contain some lowercased campaign message as a
substring of their lowercased text. -/
def matchCount (campaign_messages : List String) (analyzed : List Record) :
    Nat :=
  (analyzed.filter (fun r =>
    (campaign_messages.map toLowerStr).any
      (fun m => pyIn m (toLowerStr (r.text.getD ""))))).length

/-- The aggregation part of `compute_kpis` (lines 132-189), over the
already-enriched record list: ratios, share of voice, MIS (which may raise
on a string-valued authority), MPI, engagement rate and total reach. -/
def summarize (campaign_messages : List String) (brand : String)
    (competitors : List String) (analyzed : List Record) :
    Except Unit Summary :=
  let total_mentions := analyzed.length
  let all_brands_list := brand :: competitors
  let brand_counts := counterOf (brandAppearances analyzed)
  let total_appearances := sumValues brand_counts
  let sov := all_brands_list.map (fun b =>
    if 0 < total_appearances then
      (lookupCount brand_counts b : ℚ) / (total_appearances : ℚ) * 100
    else 0)
  let sentiment_ratio := ratioList (counterOf (tonesOf analyzed)) total_mentions
  let theme_ratio := ratioList (counterOf (themesOf analyzed)) total_mentions
  match misSum (misVals analyzed) with
  | .error e => .error e
  | .ok mis =>
    let mpi : ℚ :=
      if campaign_messages = [] then 0
      else if 0 < total_mentions then
        (matchCount campaign_messages analyzed : ℚ) / (total_mentions : ℚ) * 100
      else 0
    let eng := analyzed.foldl engStep (0, 0)
    let engagement_rate : ℚ :=
      if 0 < eng.2 then (eng.1 : ℚ) / (eng.2 : ℚ) else 0
    let reach := analyzed.foldl reachStep 0
    .ok { sentiment_ratio := sentiment_ratio, theme_ratio := theme_ratio,
          sov := sov, mis := mis, mpi := mpi,
          engagement_rate := engagement_rate, reach := reach,
          all_brands := all_brands_list, analyzed_data := analyzed }

/-- `compute_kpis` of `src/analysis.py`: empty input returns the empty
summary (`none`); otherwise the main loop enriches every record in place
(state passing: the enriched list is the final state of the input
collection) and the aggregation runs over the enriched records; an
uncaught `TypeError` from the MIS sum is `Except.error`. -/
def compute_kpis (full_data : List Record) (campaign_messages : List String)
    (brand : String) (competitors : List String) :
    Except Unit (Option Summary) :=
  if full_data = [] then .ok none
  else
    match summarize campaign_messages brand competitors
        (full_data.map (enrichRecord brand competitors)) with
    | .error e => .error e
    | .ok s => .ok (some s)

/-- Lookup of a label's percentage in a ratio mapping. -/
def lookupQ (l : List (String × ℚ)) (k : String) : Option ℚ :=
  (l.find? (fun p => p.1 = k)).map Prod.snd

/-- The keys of a counter, in insertion order. -/
def keysOf (c : List (String × Nat)) : List String := c.map Prod.fst

/-- Specification-side reading of word-boundary keyword presence: `kw`
occurs contiguously in `text` with a regex word boundary on each side
(the neighbour's word-character status differs from the keyword end's). -/
def WordOccurs (kw text : String) : Prop :=
  ∃ pre post : List Char,
    text.data = pre ++ kw.data ++ post
      ∧ wordStatus pre.getLast? ≠ wordStatus kw.data.head?
      ∧ wordStatus kw.data.getLast? ≠ wordStatus post.head?

/-- Specification-side reading of substring presence: `pat` occurs
contiguously in `s`, with no boundary requirement. -/
def SubOccurs (pat s : String) : Prop :=
  ∃ pre post : List Char, s.data = pre ++ pat.data ++ post

/-- A single-token name: no blank inside. -/
def noSpace (s : String) : Prop := ' ' ∉ s.data

instance noSpace_decidable (s : String) : Decidable (noSpace s) :=
  inferInstanceAs (Decidable (' ' ∉ s.data))

/-- Specification-side engagement qualification: a social-platform source
and integer-coercible likes and comments. -/
def qualifies (r : Record) : Bool :=
  isSocial r && (pyInt (r.likes.getD (.vInt 0))).isSome
    && (pyInt (r.comments.getD (.vInt 0))).isSome

/-- Specification-side engagement contribution of a record. -/
def engVal (r : Record) : Int :=
  (pyInt (r.likes.getD (.vInt 0))).getD 0
    + (pyInt (r.comments.getD (.vInt 0))).getD 0

/-- The reach example of the specification: values 500, "not a number",
and missing. -/
def wReach : List Record :=
  [{ emptyRec with reach := some (.vInt 500) },
   { emptyRec with reach := some (.vStr "not a number") },
   { emptyRec with text := some "update" }]

/-- A favorably-classified record with a string-valued authority. -/
def wAuthRec : Record :=
  { emptyRec with text := some "great stuff",
                  authority := some (.vStr "high") }

/-- A one-record collection with a coercion-failing likes field, for
instantiating the recovery theorem. -/
def wOne : List Record :=
  [{ emptyRec with source := some "fb", text := some "post",
                   likes := some (.vStr "oops") }]

/-- A mention of a brand configured twice (brand equal to a competitor). -/
def wDupRec : Record := { emptyRec with text := some "acme is here" }

/-- Concrete input for the share-of-voice claim. -/
def wThree : List Record := [{ emptyRec with text := some "acme rises" }]

/-- Concrete input for the sentiment-ratio claim. -/
def wFour : List Record := [{ emptyRec with text := some "good day" }]

/-- The engagement example of the specification: two social records with
likes/comments 10/5 and 0/0 and one non-social record with 1000 likes. -/
def wFive : List Record :=
  [{ emptyRec with source := some "ig", likes := some (.vInt 10),
                   comments := some (.vInt 5), text := some "launch day" },
   { emptyRec with source := some "twitter", likes := some (.vInt 0),
                   comments := some (.vInt 0), text := some "second post" },
   { emptyRec with source := some "bbc news", likes := some (.vInt 1000),
                   text := some "tv segment" }]

/-- Concrete input for the idempotence claim. -/
def wEight : List Record := [{ emptyRec with text := some "hello" }]

/-- Concrete input for the frame claim. -/
def wNine : List Record := [{ emptyRec with text := some "launch" }]

/-- Concrete input for the missing-text claim: one record with no text. -/
def wTen : List Record := [emptyRec]

/-- An explicit ordered rule table evaluated first-match-wins: the
specification's reading of a cascading conditional classifier. -/
def firstRule : List (String × List String) → String → String
  | [], _ => "General News"
  | (label, kws) :: rest, tl =>
    if kws.any (fun kw => pyIn kw tl) then label else firstRule rest tl

theorem lookupCount_nil (k : String) : lookupCount [] k = 0 := rfl

theorem lookupCount_cons (p : String × Nat) (c : List (String × Nat))
    (k : String) :
    lookupCount (p :: c) k = if p.1 = k then p.2 else lookupCount c k := by
  by_cases h : p.1 = k
  · simp [lookupCount, List.find?_cons_of_pos, h]
  · simp [lookupCount, List.find?_cons_of_neg, h]

theorem lookupCount_bump (c : List (String × Nat)) (k j : String) :
    lookupCount (bump k c) j
      = lookupCount c j + if j = k then 1 else 0 := by
  induction c with
  | nil =>
    by_cases h : j = k
    · simp [bump, lookupCount_cons, lookupCount_nil, h]
    · simp [bump, lookupCount_cons, lookupCount_nil, h, Ne.symm h]
  | cons p rest ih =>
    by_cases hpk : p.1 = k
    · subst hpk
      by_cases hjp : j = p.1
      · subst hjp
        simp [bump, lookupCount_cons]
      · simp [bump, lookupCount_cons, hjp, Ne.symm hjp]
    · by_cases hjp : p.1 = j
      · have hne : ¬ j = k := fun e => hpk (hjp.trans e)
        simp [bump, hpk, lookupCount_cons, hjp, hne]
      · simp [bump, hpk, lookupCount_cons, hjp, ih]

theorem sumValues_cons (p : String × Nat) (c : List (String × Nat)) :
    sumValues (p :: c) = p.2 + sumValues c := by
  simp [sumValues]

theorem sumValues_bump (c : List (String × Nat)) (k : String) :
    sumValues (bump k c) = sumValues c + 1 := by
  induction c with
  | nil => simp [bump, sumValues]
  | cons p rest ih =>
    by_cases h : p.1 = k
    · simp only [bump, if_pos h, sumValues_cons]
      omega
    · simp only [bump, if_neg h, sumValues_cons, ih]
      omega

theorem foldl_bump_lookup (l : List String) :
    ∀ (acc : List (String × Nat)) (j : String),
      lookupCount (l.foldl (fun a k => bump k a) acc) j
        = lookupCount acc j + l.count j := by
  induction l with
  | nil => simp
  | cons x xs ih =>
    intro acc j
    by_cases h : j = x
    · subst h
      rw [List.foldl_cons, ih, lookupCount_bump, List.count_cons_self,
        if_pos rfl]
      omega
    · rw [List.foldl_cons, ih, lookupCount_bump, List.count_cons_of_ne h,
        if_neg h]
      omega

theorem lookupCount_counterOf (l : List String) (j : String) :
    lookupCount (counterOf l) j = l.count j := by
  simpa [counterOf, lookupCount_nil] using foldl_bump_lookup l [] j

theorem foldl_bump_sum (l : List String) :
    ∀ (acc : List (String × Nat)),
      sumValues (l.foldl (fun a k => bump k a) acc)
        = sumValues acc + l.length := by
  induction l with
  | nil => simp
  | cons x xs ih =>
    intro acc
    rw [List.foldl_cons, ih, sumValues_bump, List.length_cons]
    omega

theorem sumValues_counterOf (l : List String) :
    sumValues (counterOf l) = l.length := by
  simpa [counterOf, sumValues] using foldl_bump_sum l []

theorem keysOf_nil : keysOf [] = [] := rfl

theorem keysOf_cons (p : String × Nat) (c : List (String × Nat)) :
    keysOf (p :: c) = p.1 :: keysOf c := rfl

theorem mem_keysOf_bump (c : List (String × Nat)) (k j : String) :
    j ∈ keysOf (bump k c) ↔ j ∈ keysOf c ∨ j = k := by
  induction c with
  | nil =>
    simp only [bump, keysOf_cons, keysOf_nil, List.mem_cons,
      List.not_mem_nil, List.mem_singleton]
    tauto
  | cons p rest ih =>
    by_cases h : p.1 = k
    · have hb : bump k (p :: rest) = (p.1, p.2 + 1) :: rest := by
        simp [bump, h]
      rw [hb, keysOf_cons, keysOf_cons]
      subst h
      simp only [List.mem_cons]
      tauto
    · have hb : bump k (p :: rest) = p :: bump k rest := by
        simp [bump, h]
      rw [hb, keysOf_cons, keysOf_cons]
      simp only [List.mem_cons, ih]
      tauto

theorem keysNodup_bump (c : List (String × Nat)) (k : String)
    (h : (keysOf c).Nodup) : (keysOf (bump k c)).Nodup := by
  induction c with
  | nil => simp [bump, keysOf_cons, keysOf_nil]
  | cons p rest ih =>
    rw [keysOf_cons] at h
    rcases List.nodup_cons.mp h with ⟨hp, hrest⟩
    by_cases hpk : p.1 = k
    · simp only [bump, if_pos hpk, keysOf_cons]
      exact List.nodup_cons.mpr ⟨hp, hrest⟩
    · simp only [bump, if_neg hpk, keysOf_cons]
      refine List.nodup_cons.mpr ⟨?_, ih hrest⟩
      intro hmem
      rcases (mem_keysOf_bump rest k p.1).mp hmem with h1 | h1
      · exact hp h1
      · exact hpk h1


theorem keysNodup_foldl_bump (l : List String) :
    ∀ (acc : List (String × Nat)), (keysOf acc).Nodup →
      (keysOf (l.foldl (fun a k => bump k a) acc)).Nodup := by
  induction l with
  | nil => intro acc h; simpa using h
  | cons x xs ih =>
    intro acc h
    rw [List.foldl_cons]
    exact ih _ (keysNodup_bump acc x h)

theorem keysNodup_counterOf (l : List String) :
    (keysOf (counterOf l)).Nodup :=
  keysNodup_foldl_bump l [] (by simp [keysOf])

theorem mem_keysOf_foldl_bump (l : List String) :
    ∀ (acc : List (String × Nat)) (j : String),
      j ∈ keysOf (l.foldl (fun a k => bump k a) acc)
        ↔ j ∈ keysOf acc ∨ j ∈ l := by
  induction l with
  | nil => simp
  | cons x xs ih =>
    intro acc j
    rw [List.foldl_cons, ih, mem_keysOf_bump]
    simp
    tauto

theorem mem_keysOf_counterOf (l : List String) (j : String) :
    j ∈ keysOf (counterOf l) ↔ j ∈ l := by
  simpa [counterOf, keysOf] using mem_keysOf_foldl_bump l [] j

theorem val_of_mem (c : List (String × Nat)) :
    (keysOf c).Nodup → ∀ p ∈ c, p.2 = lookupCount c p.1 := by
  induction c with
  | nil => intro _ p hp; cases hp
  | cons q rest ih =>
    intro h p hp
    rw [keysOf_cons] at h
    rcases List.nodup_cons.mp h with ⟨hq, hrest⟩
    rcases List.mem_cons.mp hp with rfl | hp2
    · rw [lookupCount_cons, if_pos rfl]
    · have hne : ¬ q.1 = p.1 := by
        intro e
        exact hq (e ▸ List.mem_map_of_mem Prod.fst hp2)
      rw [lookupCount_cons, if_neg hne]
      exact ih hrest p hp2


theorem snd_of_mem_counterOf (l : List String) (p : String × Nat)
    (hp : p ∈ counterOf l) : p.2 = l.count p.1 :=
  (val_of_mem _ (keysNodup_counterOf l) p hp).trans
    (lookupCount_counterOf l p.1)

theorem find?_counterOf (l : List String) (k : String) (hk : k ∈ l) :
    (counterOf l).find? (fun p => p.1 = k) = some (k, l.count k) := by
  have hkey : k ∈ keysOf (counterOf l) := (mem_keysOf_counterOf l k).mpr hk
  rcases List.mem_map.mp hkey with ⟨p, hp, hp1⟩
  have hsome : ((counterOf l).find? (fun p => p.1 = k)).isSome := by
    rw [List.find?_isSome]
    exact ⟨p, hp, by simp [hp1]⟩
  rcases Option.isSome_iff_exists.mp hsome with ⟨q, hq⟩
  have hq1 : q.1 = k := by simpa using List.find?_some hq
  have hqmem : q ∈ counterOf l := List.mem_of_find?_eq_some hq
  have hq2 : q.2 = l.count k := hq1 ▸ snd_of_mem_counterOf l q hqmem
  rw [hq]
  congr 1
  exact Prod.ext hq1 hq2

theorem sum_map_div_mul {α : Type} (l : List α) (g : α → ℕ) (T : ℚ) :
    (l.map (fun x => (g x : ℚ) / T * 100)).sum
      = ((l.map g).sum : ℚ) / T * 100 := by
  induction l with
  | nil => simp
  | cons x xs ih =>
    simp only [List.map_cons, List.sum_cons, ih]
    push_cast
    ring

theorem sum_ratioList (c : List (String × Nat)) (total : Nat) :
    ((ratioList c total).map Prod.snd).sum
      = (sumValues c : ℚ) / (total : ℚ) * 100 := by
  have h1 : (ratioList c total).map Prod.snd
      = c.map (fun p => (p.2 : ℚ) / (total : ℚ) * 100) := by
    simp [ratioList, List.map_map, Function.comp]
  rw [h1]
  simpa [sumValues] using
    sum_map_div_mul c (fun p => p.2) (total : ℚ)

theorem sum_map_add {α : Type} (l : List α) (f g : α → ℕ) :
    (l.map (fun x => f x + g x)).sum = (l.map f).sum + (l.map g).sum := by
  induction l with
  | nil => simp
  | cons x xs ih => simp [List.map_cons, ih]; omega

theorem sum_ite_one (x : String) :
    ∀ (names : List String), names.Nodup →
      (names.map (fun b => if x = b then 1 else 0)).sum
        = if x ∈ names then 1 else 0 := by
  intro names
  induction names with
  | nil => simp
  | cons y ys ih =>
    intro h
    rcases List.nodup_cons.mp h with ⟨hy, hys⟩
    by_cases hxy : x = y
    · subst hxy
      simp [hy, ih hys]
    · simp [hxy, ih hys]

theorem sum_count_eq_length :
    ∀ (flat names : List String), names.Nodup → (∀ x ∈ flat, x ∈ names) →
      (names.map (fun b => flat.count b)).sum = flat.length := by
  intro flat
  induction flat with
  | nil => simp
  | cons x xs ih =>
    intro names hn hsub
    have h1 : (names.map (fun b => (x :: xs).count b)).sum
        = (names.map (fun b => xs.count b)).sum
          + (names.map (fun b => if x = b then 1 else 0)).sum := by
      rw [← sum_map_add]
      congr 1
      apply List.map_congr_left
      intro b _
      by_cases hxb : x = b
      · subst hxb
        rw [List.count_cons_self, if_pos rfl]
      · rw [List.count_cons_of_ne (fun e => hxb e.symm), if_neg hxb]
        omega
    rw [h1, ih names hn (fun y hy => hsub y (List.mem_cons_of_mem x hy)),
        sum_ite_one x names hn, if_pos (hsub x (List.mem_cons_self x xs))]
    simp

theorem mem_insSorted (p q : String × Nat) :
    ∀ (l : List (String × Nat)), q ∈ insSorted p l ↔ q = p ∨ q ∈ l := by
  intro l
  induction l with
  | nil => simp [insSorted]
  | cons r rest ih =>
    by_cases h : r.2 ≤ p.2
    · simp only [insSorted, if_pos h, List.mem_cons]
    · simp only [insSorted, if_neg h, List.mem_cons, ih]
      tauto

theorem mem_sortDesc (q : String × Nat) (l : List (String × Nat)) :
    q ∈ sortDesc l ↔ q ∈ l := by
  induction l with
  | nil => simp [sortDesc]
  | cons p rest ih =>
    simp only [sortDesc, mem_insSorted, ih, List.mem_cons]

theorem pairwise_insSorted (p : String × Nat) :
    ∀ (l : List (String × Nat)),
      l.Pairwise (fun a b => b.2 ≤ a.2) →
      (insSorted p l).Pairwise (fun a b => b.2 ≤ a.2) := by
  intro l
  induction l with
  | nil => intro _; simp [insSorted]
  | cons r rest ih =>
    intro h
    rcases List.pairwise_cons.mp h with ⟨hr, hrest⟩
    by_cases hle : r.2 ≤ p.2
    · simp only [insSorted, if_pos hle]
      refine List.pairwise_cons.mpr ⟨?_, h⟩
      intro b hb
      rcases List.mem_cons.mp hb with rfl | hb2
      · exact hle
      · exact le_trans (hr b hb2) hle
    · simp only [insSorted, if_neg hle]
      refine List.pairwise_cons.mpr ⟨?_, ih hrest⟩
      intro b hb
      rcases (mem_insSorted p b rest).mp hb with rfl | hb2
      · omega
      · exact hr b hb2

theorem pairwise_sortDesc (l : List (String × Nat)) :
    (sortDesc l).Pairwise (fun a b => b.2 ≤ a.2) := by
  induction l with
  | nil => simp [sortDesc]
  | cons p rest ih => exact pairwise_insSorted p _ ih

theorem most_common_length (n : Nat) (c : List (String × Nat)) :
    (most_common n c).length ≤ n := by
  simp [most_common]

theorem most_common_pairwise (n : Nat) (c : List (String × Nat)) :
    (most_common n c).Pairwise (fun a b => b.2 ≤ a.2) :=
  (pairwise_sortDesc c).sublist (List.take_sublist n (sortDesc c))

theorem mem_most_common (n : Nat) (c : List (String × Nat))
    (p : String × Nat) (h : p ∈ most_common n c) : p ∈ c :=
  (mem_sortDesc p c).mp (List.mem_of_mem_take h)

theorem bumpBy_of_not_key (k : String) (n : Nat) :
    ∀ (c : List (String × Nat)), k ∉ keysOf c →
      bumpBy k n c = c ++ [(k, n)] := by
  intro c
  induction c with
  | nil => intro _; simp [bumpBy]
  | cons p rest ih =>
    intro h
    have h2 := h
    rw [keysOf_cons, List.mem_cons] at h2
    push_neg at h2
    obtain ⟨h3, h4⟩ := h2
    simp only [bumpBy, if_neg (fun e : p.1 = k => h3 e.symm)]
    rw [ih h4]
    simp

theorem foldl_bumpBy_append :
    ∀ (add base : List (String × Nat)),
      (∀ p ∈ add, p.1 ∉ keysOf base) → (keysOf add).Nodup →
      add.foldl (fun acc p => bumpBy p.1 p.2 acc) base = base ++ add := by
  intro add
  induction add with
  | nil => intro base _ _; simp
  | cons p rest ih =>
    intro base hdis hnd
    rw [List.foldl_cons,
      bumpBy_of_not_key p.1 p.2 base (hdis p (List.mem_cons_self p rest))]
    rw [keysOf_cons] at hnd
    rcases List.nodup_cons.mp hnd with ⟨hp, hrest⟩
    have hdis2 : ∀ q ∈ rest, q.1 ∉ keysOf (base ++ [(p.1, p.2)]) := by
      intro q hq hmem
      have : keysOf (base ++ [(p.1, p.2)]) = keysOf base ++ [p.1] := by
        simp [keysOf]
      rw [this, List.mem_append] at hmem
      rcases hmem with h1 | h1
      · exact hdis q (List.mem_cons_of_mem p hq) h1
      · have : q.1 = p.1 := by simpa using h1
        exact hp (this ▸ List.mem_map_of_mem Prod.fst hq)
    rw [ih (base ++ [(p.1, p.2)]) hdis2 hrest]
    simp

theorem mem_bigramsOf :
    ∀ (l : List String) (a b : String),
      (a, b) ∈ bigramsOf l → a ∈ l ∧ b ∈ l := by
  intro l
  induction l with
  | nil => intro a b h; cases h
  | cons x rest ih =>
    intro a b h
    cases rest with
    | nil => cases h
    | cons y ys =>
      rcases List.mem_cons.mp h with heq | h2
      · have ha : a = x := congrArg Prod.fst heq
        have hb : b = y := congrArg Prod.snd heq
        subst ha; subst hb
        exact ⟨List.mem_cons_self _ _, List.mem_cons_of_mem _
          (List.mem_cons_self _ _)⟩
      · have := ih a b h2
        exact ⟨List.mem_cons_of_mem x this.1,
          List.mem_cons_of_mem x this.2⟩

theorem subAt_iff :
    ∀ (pat txt : List Char), subAt pat txt = true ↔ ∃ post, txt = pat ++ post := by
  intro pat
  induction pat with
  | nil => intro txt; simp [subAt]
  | cons p ps ih =>
    intro txt
    cases txt with
    | nil => simp [subAt]
    | cons c cs =>
      simp only [subAt, Bool.and_eq_true, decide_eq_true_eq, ih,
        List.cons_append, List.cons.injEq]
      constructor
      · rintro ⟨rfl, post, rfl⟩
        exact ⟨post, rfl, rfl⟩
      · rintro ⟨post, rfl, rfl⟩
        exact ⟨rfl, post, rfl⟩

theorem subSearch_iff :
    ∀ (txt pat : List Char),
      subSearch pat txt = true ↔ ∃ pre post, txt = pre ++ pat ++ post := by
  intro txt
  induction txt with
  | nil =>
    intro pat
    simp only [subSearch, subAt_iff]
    constructor
    · rintro ⟨post, h⟩
      exact ⟨[], post, by simpa using h⟩
    · rintro ⟨pre, post, h⟩
      rcases List.append_eq_nil.mp
        (List.append_eq_nil.mp h.symm).1 with ⟨h1, h2⟩
      exact ⟨post, by simp [h1, h2] at h ⊢; exact h⟩
  | cons c cs ih =>
    intro pat
    simp only [subSearch, Bool.or_eq_true, subAt_iff, ih]
    constructor
    · rintro (⟨post, h⟩ | ⟨pre, post, h⟩)
      · exact ⟨[], post, by simpa using h⟩
      · exact ⟨c :: pre, post, by simp [h]⟩
    · rintro ⟨pre, post, h⟩
      cases pre with
      | nil =>
        left
        exact ⟨post, by simpa using h⟩
      | cons d ds =>
        right
        rw [List.cons_append, List.cons_append] at h
        injection h with h1 h2
        exact ⟨ds, post, by simpa using h2⟩

theorem pyIn_iff (pat s : String) : pyIn pat s = true ↔ SubOccurs pat s := by
  simp only [pyIn, SubOccurs, subSearch_iff]

theorem afterPfx_eq_some :
    ∀ (kw txt : List Char) (after : Option Char),
      afterPfx kw txt = some after
        ↔ ∃ post, txt = kw ++ post ∧ post.head? = after := by
  intro kw
  induction kw with
  | nil =>
    intro txt after
    cases txt with
    | nil => simp [afterPfx, eq_comm]
    | cons c cs => simp [afterPfx, eq_comm]
  | cons k ks ih =>
    intro txt after
    cases txt with
    | nil => simp [afterPfx]
    | cons c cs =>
      by_cases h : k = c
      · subst h
        have e1 : afterPfx (k :: ks) (k :: cs) = afterPfx ks cs := by
          simp [afterPfx]
        rw [e1, ih cs after]
        exact exists_congr fun post => by simp [List.cons_append]
      · simp only [afterPfx, if_neg h]
        constructor
        · intro hh
          cases hh
        · rintro ⟨post, heq, _⟩
          rw [List.cons_append] at heq
          injection heq with h1 _
          exact (h h1.symm).elim

theorem foldl_const_last :
    ∀ (ks : List Char) (k : Char),
      some (ks.foldl (fun _ c => c) k) = (k :: ks).getLast? := by
  intro ks
  induction ks with
  | nil => intro k; simp
  | cons c cs ih =>
    intro k
    rw [List.foldl_cons, List.getLast?_cons_cons]
    exact ih c

theorem matchHere_iff (k : Char) (ks : List Char) (prev : Option Char)
    (txt : List Char) :
    matchHere (k :: ks) prev txt = true ↔
      ∃ post, txt = (k :: ks) ++ post
        ∧ wordStatus prev ≠ wordStatus ((k :: ks).head?)
        ∧ wordStatus ((k :: ks).getLast?) ≠ wordStatus post.head? := by
  simp only [matchHere]
  cases hA : afterPfx (k :: ks) txt with
  | none =>
    simp only [Bool.false_eq_true, false_iff]
    rintro ⟨post, heq, _, _⟩
    have : afterPfx (k :: ks) txt = some post.head? :=
      (afterPfx_eq_some _ _ _).mpr ⟨post, heq, rfl⟩
    rw [hA] at this
    cases this
  | some after =>
    rcases (afterPfx_eq_some _ _ _).mp hA with ⟨post, heq, hpost⟩
    rw [Bool.and_eq_true, bne_iff_ne, bne_iff_ne]
    constructor
    · rintro ⟨h1, h2⟩
      refine ⟨post, heq, ?_, ?_⟩
      · simpa [wordStatus] using h1
      · rw [← foldl_const_last ks k] at *
        simpa [wordStatus, hpost] using h2
    · rintro ⟨post2, heq2, h1, h2⟩
      have hsame : post2 = post := by
        have h3 : (k :: ks) ++ post = (k :: ks) ++ post2 := heq ▸ heq2
        exact (List.append_cancel_left h3).symm
      subst hsame
      constructor
      · simpa [wordStatus] using h1
      · rw [← foldl_const_last ks k] at h2
        simpa [wordStatus, hpost] using h2

theorem getLast?_cons_or (c : Char) (pre : List Char) (prev : Option Char) :
    ((c :: pre).getLast?).or prev = (pre.getLast?).or (some c) := by
  cases pre with
  | nil => simp
  | cons d ds =>
    rw [List.getLast?_cons_cons]
    rcases hx : (d :: ds).getLast? with _ | x
    · simp [List.getLast?] at hx
    · simp

theorem searchFrom_iff :
    ∀ (txt kw : List Char), kw ≠ [] → ∀ (prev : Option Char),
      searchFrom kw prev txt = true ↔
        ∃ pre post, txt = pre ++ kw ++ post
          ∧ wordStatus ((pre.getLast?).or prev) ≠ wordStatus kw.head?
          ∧ wordStatus kw.getLast? ≠ wordStatus post.head? := by
  intro txt
  induction txt with
  | nil =>
    intro kw hkw prev
    rcases kw with _ | ⟨k, ks⟩
    · exact absurd rfl hkw
    · simp only [searchFrom, matchHere_iff]
      constructor
      · rintro ⟨post, heq, h1, h2⟩
        exact ⟨[], post, by simpa using heq, by simpa using h1, h2⟩
      · rintro ⟨pre, post, heq, h1, h2⟩
        have hpre : pre = [] := by
          cases pre with
          | nil => rfl
          | cons d ds => simp at heq
        subst hpre
        exact ⟨post, by simpa using heq, by simpa using h1, h2⟩
  | cons c cs ih =>
    intro kw hkw prev
    rcases kw with _ | ⟨k, ks⟩
    · exact absurd rfl hkw
    · rw [searchFrom, Bool.or_eq_true, matchHere_iff,
        ih (k :: ks) hkw (some c)]
      constructor
      · rintro (⟨post, heq, h1, h2⟩ | ⟨pre, post, heq, h1, h2⟩)
        · exact ⟨[], post, by simpa using heq, by simpa using h1, h2⟩
        · refine ⟨c :: pre, post, by simp [heq], ?_, h2⟩
          rwa [getLast?_cons_or]
      · rintro ⟨pre, post, heq, h1, h2⟩
        cases pre with
        | nil =>
          left
          exact ⟨post, by simpa using heq, by simpa using h1, h2⟩
        | cons d ds =>
          right
          rw [List.cons_append, List.cons_append] at heq
          injection heq with hdc heq2
          subst hdc
          refine ⟨ds, post, by simpa using heq2, ?_, h2⟩
          rwa [getLast?_cons_or] at h1

theorem wordMatch_iff (kw text : String) (h : kw ≠ "") :
    wordMatch kw text = true ↔ WordOccurs kw text := by
  have hd : kw.data ≠ [] := by
    intro e
    apply h
    cases kw with
    | mk l =>
      simp at e
      simp [e]
  unfold wordMatch WordOccurs
  rw [searchFrom_iff text.data kw.data hd none]
  simp [Option.or_none]

theorem enrich_text (b : String) (cs : List String) (r : Record) :
    (enrichRecord b cs r).text = r.text := rfl

theorem enrich_source (b : String) (cs : List String) (r : Record) :
    (enrichRecord b cs r).source = r.source := rfl

theorem enrich_likes (b : String) (cs : List String) (r : Record) :
    (enrichRecord b cs r).likes = r.likes := rfl

theorem enrich_comments (b : String) (cs : List String) (r : Record) :
    (enrichRecord b cs r).comments = r.comments := rfl

theorem enrich_reach (b : String) (cs : List String) (r : Record) :
    (enrichRecord b cs r).reach = r.reach := rfl

theorem enrich_authority (b : String) (cs : List String) (r : Record) :
    (enrichRecord b cs r).authority = r.authority := rfl

theorem enrich_extra (b : String) (cs : List String) (r : Record) :
    (enrichRecord b cs r).extra = r.extra := rfl

theorem enrich_sentiment (b : String) (cs : List String) (r : Record) :
    (enrichRecord b cs r).sentiment
      = some (analyze_sentiment_keywords r.text) := rfl

theorem enrich_theme (b : String) (cs : List String) (r : Record) :
    (enrichRecord b cs r).theme
      = some (classifyTheme (toLowerStr (r.text.getD ""))) := rfl

theorem enrich_mentioned (b : String) (cs : List String) (r : Record) :
    (enrichRecord b cs r).mentioned_brands
      = some (mentionedBrands (b :: cs) (toLowerStr (r.text.getD ""))) := rfl

theorem enrich_enrich (b : String) (cs : List String) (r : Record) :
    enrichRecord b cs (enrichRecord b cs r) = enrichRecord b cs r := by
  cases r
  rfl

theorem misSum_ok_of_no_str :
    ∀ (vals : List Val) (acc : Option Int),
      (∀ v ∈ vals, ∀ str, v ≠ Val.vStr str) →
      ∃ x, vals.foldlM misAdd acc = Except.ok x := by
  intro vals
  induction vals with
  | nil =>
    intro acc _
    exact ⟨acc, rfl⟩
  | cons v rest ih =>
    intro acc h
    have hrest : ∀ w ∈ rest, ∀ str, w ≠ Val.vStr str :=
      fun w hw => h w (List.mem_cons_of_mem v hw)
    rcases v with n | str | _
    · exact ih (acc.map (fun a => a + n)) hrest
    · exact absurd rfl (h (Val.vStr str) (List.mem_cons_self _ _) str)
    · exact ih none hrest

theorem foldl_engStep :
    ∀ (l : List Record) (acc : Int × Nat),
      l.foldl engStep acc
        = (acc.1 + ((l.filter qualifies).map engVal).sum,
           acc.2 + (l.filter qualifies).length) := by
  intro l
  induction l with
  | nil => intro acc; simp
  | cons r rest ih =>
    intro acc
    rw [List.foldl_cons]
    by_cases hq : qualifies r = true
    · have hstep : engStep acc r = (acc.1 + engVal r, acc.2 + 1) := by
        unfold qualifies at hq
        simp only [Bool.and_eq_true] at hq
        obtain ⟨⟨hs, hl⟩, hc⟩ := hq
        rcases Option.isSome_iff_exists.mp hl with ⟨lk, hlk⟩
        rcases Option.isSome_iff_exists.mp hc with ⟨cm, hcm⟩
        simp [engStep, hs, hlk, hcm, engVal]
      rw [hstep, ih, List.filter_cons_of_pos hq]
      simp only [List.map_cons, List.sum_cons, List.length_cons,
        Prod.mk.injEq]
      constructor <;> omega
    · have hstep : engStep acc r = acc := by
        by_cases hs : isSocial r = true
        · rcases hlk : pyInt (r.likes.getD (.vInt 0)) with _ | lk
          · simp [engStep, hs, hlk]
          · rcases hcm : pyInt (r.comments.getD (.vInt 0)) with _ | cm
            · simp [engStep, hs, hlk, hcm]
            · exact absurd (by simp [qualifies, hs, hlk, hcm]) hq
        · simp [engStep, hs]
      rw [hstep, ih, List.filter_cons_of_neg hq]

theorem summarize_error_iff (m : List String) (b : String)
    (cs : List String) (az : List Record) (e : Unit) :
    summarize m b cs az = .error e ↔ misSum (misVals az) = .error e := by
  cases hm : misSum (misVals az) with
  | error e2 =>
    cases e; cases e2
    simp [summarize, hm]
  | ok mis => simp [summarize, hm]

theorem summarize_eq_ok (m : List String) (b : String) (cs : List String)
    (az : List Record) (s : Summary) :
    summarize m b cs az = .ok s ↔
      ∃ mis, misSum (misVals az) = .ok mis ∧
        s = { sentiment_ratio := ratioList (counterOf (tonesOf az)) az.length,
              theme_ratio := ratioList (counterOf (themesOf az)) az.length,
              sov := (b :: cs).map (fun bb =>
                if 0 < sumValues (counterOf (brandAppearances az)) then
                  (lookupCount (counterOf (brandAppearances az)) bb : ℚ)
                    / (sumValues (counterOf (brandAppearances az)) : ℚ) * 100
                else 0),
              mis := mis,
              mpi := if m = [] then 0
                else if 0 < az.length then
                  (matchCount m az : ℚ) / (az.length : ℚ) * 100 else 0,
              engagement_rate :=
                if 0 < (az.foldl engStep (0, 0)).2 then
                  ((az.foldl engStep (0, 0)).1 : ℚ)
                    / ((az.foldl engStep (0, 0)).2 : ℚ) else 0,
              reach := az.foldl reachStep 0,
              all_brands := b :: cs,
              analyzed_data := az } := by
  cases hm : misSum (misVals az) with
  | error e => simp [summarize, hm]
  | ok mis =>
    simp only [summarize, hm, Except.ok.injEq]
    constructor
    · intro h
      exact ⟨mis, rfl, h.symm⟩
    · rintro ⟨mis2, hm2, hs⟩
      subst hm2
      exact hs.symm

theorem compute_kpis_eq_ok (d : List Record) (m : List String) (b : String)
    (cs : List String) (s : Summary) (hd : d ≠ []) :
    compute_kpis d m b cs = .ok (some s)
      ↔ summarize m b cs (d.map (enrichRecord b cs)) = .ok s := by
  unfold compute_kpis
  rw [if_neg hd]
  cases h : summarize m b cs (d.map (enrichRecord b cs)) with
  | error e => simp
  | ok t => simp

theorem compute_kpis_ok_ne_nil (d : List Record) (m : List String)
    (b : String) (cs : List String) (s : Summary)
    (h : compute_kpis d m b cs = .ok (some s)) : d ≠ [] := by
  intro hd
  subst hd
  simp [compute_kpis] at h

theorem compute_kpis_error_iff (d : List Record) (m : List String)
    (b : String) (cs : List String) (e : Unit) :
    compute_kpis d m b cs = .error e
      ↔ d ≠ [] ∧ misSum (misVals (d.map (enrichRecord b cs))) = .error e := by
  by_cases hd : d = []
  · simp [compute_kpis, hd]
  · unfold compute_kpis
    rw [if_neg hd]
    cases hs : summarize m b cs (d.map (enrichRecord b cs)) with
    | error e2 =>
      have h2 := (summarize_error_iff m b cs _ e2).mp hs
      cases e; cases e2
      simp [hd, h2]
    | ok t =>
      simp only [hd, ne_eq, not_false_iff, true_and]
      constructor
      · intro h; cases h
      · intro h
        rw [(summarize_error_iff m b cs _ e).mpr h] at hs
        cases hs

theorem compute_kpis_ok_none (d : List Record) (m : List String)
    (b : String) (cs : List String)
    (h : compute_kpis d m b cs = .ok none) : d = [] := by
  by_cases hd : d = []
  · exact hd
  · exfalso
    unfold compute_kpis at h
    rw [if_neg hd] at h
    cases hs : summarize m b cs (d.map (enrichRecord b cs)) with
    | error e => rw [hs] at h; simp at h
    | ok t => rw [hs] at h; simp at h

theorem compute_kpis_ok_of_mis (d : List Record) (m : List String)
    (b : String) (cs : List String)
    (h : ∃ x, misSum (misVals (d.map (enrichRecord b cs))) = .ok x) :
    ∃ out, compute_kpis d m b cs = .ok out := by
  by_cases hd : d = []
  · exact ⟨none, by simp [compute_kpis, hd]⟩
  · rcases hs : summarize m b cs (d.map (enrichRecord b cs)) with e | t
    · exfalso
      rcases h with ⟨x, hx⟩
      rw [(summarize_error_iff m b cs _ e).mp hs] at hx
      cases hx
    · refine ⟨some t, ?_⟩
      unfold compute_kpis
      rw [if_neg hd, hs]

theorem compute_kpis_cases (d : List Record) (m : List String) (b : String)
    (cs : List String) (hd : d ≠ [])
    (hmis : ∀ e : Unit,
      misSum (misVals (d.map (enrichRecord b cs))) ≠ .error e) :
    ∃ s, compute_kpis d m b cs = .ok (some s) := by
  rcases hE : compute_kpis d m b cs with e | o
  · exact absurd ((compute_kpis_error_iff d m b cs e).mp hE).2 (hmis e)
  · rcases o with _ | s
    · exact absurd (compute_kpis_ok_none d m b cs hE) hd
    · exact ⟨s, rfl⟩

theorem wordMatch_empty (kw : String) : wordMatch kw "" = false := by
  unfold wordMatch
  show searchFrom kw.data none [] = false
  rcases kw.data with _ | ⟨k, ks⟩
  · simp [searchFrom, matchHere, wordStatus]
  · simp [searchFrom, matchHere, afterPfx]

theorem qualifies_enrich (b : String) (cs : List String) (r : Record) :
    qualifies (enrichRecord b cs r) = qualifies r := rfl

theorem engVal_enrich (b : String) (cs : List String) (r : Record) :
    engVal (enrichRecord b cs r) = engVal r := rfl

theorem map_enrich_idem (d : List Record) (b : String) (cs : List String) :
    (d.map (enrichRecord b cs)).map (enrichRecord b cs)
      = d.map (enrichRecord b cs) := by
  rw [List.map_map]
  apply List.map_congr_left
  intro r _
  exact enrich_enrich b cs r

theorem mem_brandAppearances (d : List Record) (b : String)
    (cs : List String) (x : String)
    (hx : x ∈ brandAppearances (d.map (enrichRecord b cs))) :
    x ∈ b :: cs ∧ ∃ r ∈ d,
      wordMatch (toLowerStr x) (toLowerStr (r.text.getD "")) = true := by
  unfold brandAppearances at hx
  rcases List.mem_flatMap.mp hx with ⟨er, her, hxer⟩
  rcases List.mem_map.mp her with ⟨r, hr, rfl⟩
  rw [enrich_mentioned, Option.getD_some] at hxer
  unfold mentionedBrands at hxer
  rcases List.mem_filter.mp (List.mem_dedup.mp hxer) with ⟨hmem, hmatch⟩
  exact ⟨hmem, r, hr, by simpa using hmatch⟩

theorem mem_brandAppearances_intro (d : List Record) (b : String)
    (cs : List String) (bb : String) (r : Record) (hbb : bb ∈ b :: cs)
    (hr : r ∈ d)
    (hm : wordMatch (toLowerStr bb) (toLowerStr (r.text.getD "")) = true) :
    bb ∈ brandAppearances (d.map (enrichRecord b cs)) := by
  unfold brandAppearances
  apply List.mem_flatMap.mpr
  refine ⟨enrichRecord b cs r, List.mem_map_of_mem _ hr, ?_⟩
  rw [enrich_mentioned, Option.getD_some]
  unfold mentionedBrands
  exact List.mem_dedup.mpr (List.mem_filter.mpr ⟨hbb, by simpa using hm⟩)

theorem lookupQ_ratioList (l : List String) (total : Nat) (k : String)
    (hk : k ∈ l) :
    lookupQ (ratioList (counterOf l) total) k
      = some ((l.count k : ℚ) / (total : ℚ) * 100) := by
  unfold lookupQ ratioList
  rw [List.find?_map]
  have hcomp :
      ((fun p : String × ℚ => decide (p.1 = k))
        ∘ (fun p : String × Nat => (p.1, (p.2 : ℚ) / (total : ℚ) * 100)))
      = (fun p : String × Nat => decide (p.1 = k)) := rfl
  rw [hcomp, find?_counterOf l k hk]
  rfl

theorem kwCount_pos_iff (kws : List String) (tl : String) :
    0 < kwCount kws tl ↔ ∃ k ∈ kws, wordMatch k tl = true := by
  unfold kwCount
  rw [List.length_pos_iff_exists_mem]
  constructor
  · rintro ⟨k, hk⟩
    rcases List.mem_filter.mp hk with ⟨h1, h2⟩
    exact ⟨k, h1, h2⟩
  · rintro ⟨k, h1, h2⟩
    exact ⟨k, List.mem_filter.mpr ⟨h1, h2⟩⟩

/-- C6: for every input text, theme classification checks the categories in
the exact order CSR/ESG, Corporate, Partnership/Sponsorship,
Product/Service, Legal/Risk, assigning the first category one of whose
keywords occurs as a substring (not word-boundary: `SubOccurs` imposes no
boundary condition) of the lowercased text, and General News when none
matches; and the text "Our CEO announced record profit results" is
classified Corporate. -/
theorem theme_first_match_order :
    (∀ tl : String, classifyTheme tl = firstRule themeRules tl)
    ∧ (∀ pat s : String, pyIn pat s = true ↔ SubOccurs pat s)
    ∧ (enrichRecord "acme" []
        { emptyRec with
          text := some "Our CEO announced record profit results" }).theme
        = some "Corporate" := by
  refine ⟨fun tl => rfl, pyIn_iff, by decide⟩

/-- C2: sentiment classification follows the exact priority order
anger > mixed > negative > positive > appreciation > neutral, with
word-boundary (`WordOccurs`), case-insensitive (text lowercased) keyword
matching; empty or missing text is neutral immediately. -/
theorem sentiment_priority_cascade :
    (∀ text : Option String,
      analyze_sentiment_keywords text =
        if text = none ∨ text = some "" then "neutral"
        else
          if ∃ k ∈ anger_kws, wordMatch k (toLowerStr (text.getD "")) = true
          then "anger"
          else if ((∃ k ∈ positive_kws,
                  wordMatch k (toLowerStr (text.getD "")) = true)
                ∧ (∃ k ∈ negative_kws,
                  wordMatch k (toLowerStr (text.getD "")) = true))
              ∨ ((∃ k ∈ mixed_kws,
                  wordMatch k (toLowerStr (text.getD "")) = true)
                ∧ ((∃ k ∈ positive_kws,
                    wordMatch k (toLowerStr (text.getD "")) = true)
                  ∨ (∃ k ∈ negative_kws,
                    wordMatch k (toLowerStr (text.getD "")) = true)))
          then "mixed"
          else if ∃ k ∈ negative_kws,
              wordMatch k (toLowerStr (text.getD "")) = true then "negative"
          else if ∃ k ∈ positive_kws,
              wordMatch k (toLowerStr (text.getD "")) = true then "positive"
          else if ∃ k ∈ appreciation_kws,
              wordMatch k (toLowerStr (text.getD "")) = true
          then "appreciation"
          else "neutral")
    ∧ (∀ kw text : String, kw ≠ "" →
        (wordMatch kw text = true ↔ WordOccurs kw text)) := by
  constructor
  · intro text
    rcases text with _ | t
    · simp [analyze_sentiment_keywords]
    · by_cases ht : t = ""
      · simp [analyze_sentiment_keywords, ht]
      · have hne : ¬ (some t = none ∨ some t = some "") := by simp [ht]
        rw [if_neg hne]
        simp only [Option.getD_some]
        by_cases hAng : ∃ k ∈ anger_kws, wordMatch k (toLowerStr t) = true <;>
        by_cases hPos : ∃ k ∈ positive_kws,
          wordMatch k (toLowerStr t) = true <;>
        by_cases hNeg : ∃ k ∈ negative_kws,
          wordMatch k (toLowerStr t) = true <;>
        by_cases hApp : ∃ k ∈ appreciation_kws,
          wordMatch k (toLowerStr t) = true <;>
        by_cases hMix : ∃ k ∈ mixed_kws, wordMatch k (toLowerStr t) = true <;>
        simp [analyze_sentiment_keywords, ht, kwCount_pos_iff,
          List.any_eq_true, hAng, hPos, hNeg, hApp, hMix]
  · intro kw text hkw
    exact wordMatch_iff kw text hkw

/-- C4: for every non-empty record collection, the values of the
sentiment_ratio mapping returned by compute_kpis sum to 100 (exactly, in
the rational model of the floating percentages). -/
theorem sentiment_ratio_sums_to_100 (d : List Record) (m : List String)
    (b : String) (cs : List String) (s : Summary)
    (h : compute_kpis d m b cs = .ok (some s)) :
    (s.sentiment_ratio.map Prod.snd).sum = 100 := by
  have hd : d ≠ [] := compute_kpis_ok_ne_nil d m b cs s h
  rw [compute_kpis_eq_ok d m b cs s hd] at h
  rcases (summarize_eq_ok m b cs _ s).mp h with ⟨mis, _, rfl⟩
  show ((ratioList (counterOf (tonesOf (d.map (enrichRecord b cs))))
      (d.map (enrichRecord b cs)).length).map Prod.snd).sum = 100
  rw [sum_ratioList, sumValues_counterOf]
  have h1 : (tonesOf (d.map (enrichRecord b cs))).length
      = (d.map (enrichRecord b cs)).length := by
    simp [tonesOf]
  rw [h1]
  have hpos : 0 < (d.map (enrichRecord b cs)).length := by
    rw [List.length_map]
    exact List.length_pos.mpr hd
  have hne : ((d.map (enrichRecord b cs)).length : ℚ) ≠ 0 := by
    exact_mod_cast Nat.pos_iff_ne_zero.mp hpos
  rw [div_self hne, one_mul]

/-- Witness for C4 at a concrete one-record collection. -/
theorem sentiment_ratio_sums_to_100_witness :
    ∃ s, compute_kpis wFour [] "acme" [] = .ok (some s)
      ∧ (s.sentiment_ratio.map Prod.snd).sum = 100 := by
  rcases compute_kpis_cases wFour [] "acme" [] (by decide)
    (by intro e; cases e; decide) with ⟨s, hE⟩
  exact ⟨s, hE, sentiment_ratio_sums_to_100 wFour [] "acme" [] s hE⟩

theorem engagement_filter_map (d : List Record) (b : String)
    (cs : List String) :
    (d.map (enrichRecord b cs)).filter qualifies
      = (d.filter qualifies).map (enrichRecord b cs) := by
  rw [List.filter_map]
  congr 1

/-- C5: the engagement rate returned by compute_kpis is the average of
likes + comments over exactly the records whose source contains a social
marker and whose likes and comments both coerce to integers (records
failing coercion leave both numerator and denominator); 0 with no
qualifying records; and on the specification's example it equals 7.5. -/
theorem engagement_rate_social_average :
    (∀ (d : List Record) (m : List String) (b : String) (cs : List String)
        (s : Summary), compute_kpis d m b cs = .ok (some s) →
      s.engagement_rate =
        if d.filter qualifies = [] then 0
        else (((d.filter qualifies).map engVal).sum : ℚ)
          / ((d.filter qualifies).length : ℚ))
    ∧ (∃ s, compute_kpis wFive [] "acme" [] = .ok (some s)
        ∧ s.engagement_rate = 15 / 2) := by
  have main : ∀ (d : List Record) (m : List String) (b : String)
      (cs : List String) (s : Summary),
      compute_kpis d m b cs = .ok (some s) →
      s.engagement_rate =
        if d.filter qualifies = [] then 0
        else (((d.filter qualifies).map engVal).sum : ℚ)
          / ((d.filter qualifies).length : ℚ) := by
    intro d m b cs s h
    have hd : d ≠ [] := compute_kpis_ok_ne_nil d m b cs s h
    rw [compute_kpis_eq_ok d m b cs s hd] at h
    rcases (summarize_eq_ok m b cs _ s).mp h with ⟨mis, _, rfl⟩
    show (if 0 < ((d.map (enrichRecord b cs)).foldl engStep (0, 0)).2 then
        (((d.map (enrichRecord b cs)).foldl engStep (0, 0)).1 : ℚ)
          / (((d.map (enrichRecord b cs)).foldl engStep (0, 0)).2 : ℚ)
      else 0) = _
    rw [foldl_engStep, engagement_filter_map]
    have hmap : (((d.filter qualifies).map (enrichRecord b cs)).map
        engVal).sum = ((d.filter qualifies).map engVal).sum := by
      rw [List.map_map]
      apply congrArg
      apply List.map_congr_left
      intro r _
      rfl
    by_cases hq : d.filter qualifies = []
    · simp [hq]
    · have hlen : 0 < (d.filter qualifies).length := List.length_pos.mpr hq
      rw [if_neg hq]
      have hlen2 : 0 < (((d.filter qualifies).map
          (enrichRecord b cs)).length) := by
        rwa [List.length_map]
      simp only [zero_add, List.length_map]
      rw [if_pos hlen, hmap]
  refine ⟨main, ?_⟩
  rcases compute_kpis_cases wFive [] "acme" [] (by decide)
    (by intro e; cases e; decide) with ⟨s, hE⟩
  refine ⟨s, hE, ?_⟩
  rw [main wFive [] "acme" [] s hE]
  rw [if_neg (show ¬ wFive.filter qualifies = [] from by decide)]
  rw [show ((wFive.filter qualifies).map engVal).sum = 15 from by decide,
    show (wFive.filter qualifies).length = 2 from by decide]
  norm_num

/-- Witness for C5's universally quantified part at the example input. -/
theorem engagement_rate_social_average_witness :
    ∃ s, compute_kpis wFive [] "acme" [] = .ok (some s)
      ∧ s.engagement_rate =
        if wFive.filter qualifies = [] then 0
        else (((wFive.filter qualifies).map engVal).sum : ℚ)
          / ((wFive.filter qualifies).length : ℚ) := by
  rcases compute_kpis_cases wFive [] "acme" [] (by decide)
    (by intro e; cases e; decide) with ⟨s, hE⟩
  exact ⟨s, hE,
    engagement_rate_social_average.1 wFive [] "acme" [] s hE⟩

theorem sov_sum_lemma (names flat : List String) (hnd : names.Nodup)
    (hsub : ∀ x ∈ flat, x ∈ names) (hne : flat ≠ []) :
    (names.map (fun bb =>
      if 0 < sumValues (counterOf flat) then
        (lookupCount (counterOf flat) bb : ℚ)
          / (sumValues (counterOf flat) : ℚ) * 100
      else 0)).sum = 100 := by
  have hTpos : 0 < sumValues (counterOf flat) := by
    rw [sumValues_counterOf]
    exact List.length_pos.mpr hne
  have hmapeq : names.map (fun bb =>
      if 0 < sumValues (counterOf flat) then
        (lookupCount (counterOf flat) bb : ℚ)
          / (sumValues (counterOf flat) : ℚ) * 100
      else 0)
      = names.map (fun bb =>
        (flat.count bb : ℚ) / ((flat.length : ℚ)) * 100) := by
    apply List.map_congr_left
    intro x _
    rw [if_pos hTpos, lookupCount_counterOf, sumValues_counterOf]
  rw [hmapeq, sum_map_div_mul, sum_count_eq_length flat names hnd hsub]
  have hlen : ((flat.length : ℚ)) ≠ 0 := by
    have : flat.length ≠ 0 := by
      have := List.length_pos.mpr hne
      omega
    exact_mod_cast this
  rw [div_self hlen, one_mul]

theorem sov_zero_lemma (names flat : List String) (hnil : flat = [])
    (q : ℚ)
    (hq : q ∈ names.map (fun bb =>
      if 0 < sumValues (counterOf flat) then
        (lookupCount (counterOf flat) bb : ℚ)
          / (sumValues (counterOf flat) : ℚ) * 100
      else 0)) : q = 0 := by
  subst hnil
  rcases List.mem_map.mp hq with ⟨x, _, rfl⟩
  simp [counterOf, sumValues]

/-- C3 (amended): the sov list has length `len([brand] + competitors)`;
when the configured names are pairwise distinct, its entries sum to 100
whenever at least one of them has a whole-word mention across the records;
and every entry is 0 when no name is mentioned anywhere. -/
theorem sov_properties (d : List Record) (m : List String) (b : String)
    (cs : List String) (s : Summary)
    (h : compute_kpis d m b cs = .ok (some s)) :
    s.sov.length = (b :: cs).length
    ∧ ((b :: cs).Nodup →
        (∃ bb ∈ b :: cs, ∃ r ∈ d,
          wordMatch (toLowerStr bb) (toLowerStr (r.text.getD "")) = true) →
        s.sov.sum = 100)
    ∧ ((∀ bb ∈ b :: cs, ∀ r ∈ d,
          wordMatch (toLowerStr bb) (toLowerStr (r.text.getD "")) = false) →
        ∀ q ∈ s.sov, q = 0) := by
  have hd : d ≠ [] := compute_kpis_ok_ne_nil d m b cs s h
  rw [compute_kpis_eq_ok d m b cs s hd] at h
  rcases (summarize_eq_ok m b cs _ s).mp h with ⟨mis, _, rfl⟩
  refine ⟨List.length_map _ _, fun hnd hmention => ?_, fun hno q hq => ?_⟩
  · rcases hmention with ⟨bb, hbb, r, hr, hm⟩
    have hflatmem : bb ∈ brandAppearances (d.map (enrichRecord b cs)) :=
      mem_brandAppearances_intro d b cs bb r hbb hr hm
    exact sov_sum_lemma (b :: cs) _ hnd
      (fun x hx => (mem_brandAppearances d b cs x hx).1)
      (List.ne_nil_of_mem hflatmem)
  · have hflatnil : brandAppearances (d.map (enrichRecord b cs)) = [] := by
      rcases hne : brandAppearances (d.map (enrichRecord b cs)) with
        _ | ⟨x, rest⟩
      · rfl
      · exfalso
        have hx : x ∈ brandAppearances (d.map (enrichRecord b cs)) := by
          rw [hne]
          exact List.mem_cons_self _ _
        rcases mem_brandAppearances d b cs x hx with ⟨hmem, r, hr, hm⟩
        have hcontr := hno x hmem r hr
        rw [hm] at hcontr
        cases hcontr
    exact sov_zero_lemma (b :: cs) _ hflatnil q hq

/-- Witness for C3 at a concrete mention of the brand. -/
theorem sov_properties_witness :
    ∃ s, compute_kpis wThree [] "acme" ["beta"] = .ok (some s)
      ∧ s.sov.length = 2 ∧ s.sov.sum = 100 := by
  rcases compute_kpis_cases wThree [] "acme" ["beta"] (by decide)
    (by intro e; cases e; decide) with ⟨s, hE⟩
  have h := sov_properties wThree [] "acme" ["beta"] s hE
  exact ⟨s, hE, h.1, h.2.1 (by decide) (by decide)⟩

/-- C3 counterexample: with the brand name "acme" also configured as a
competitor (a duplicate in `[brand] + competitors`), one record mentioning
it yields sov entries summing to 200, not 100, although a mention exists. -/
theorem sov_sum_duplicate_brand :
    ∃ s, compute_kpis [wDupRec] [] "acme" ["acme"] = .ok (some s)
      ∧ (∃ bb ∈ "acme" :: ["acme"], ∃ r ∈ [wDupRec],
          wordMatch (toLowerStr bb) (toLowerStr (r.text.getD "")) = true)
      ∧ s.sov.sum = 200 := by
  rcases compute_kpis_cases [wDupRec] [] "acme" ["acme"] (by decide)
    (by intro e; cases e; decide) with ⟨s, hE⟩
  refine ⟨s, hE, by decide, ?_⟩
  have hd : ([wDupRec] : List Record) ≠ [] := by decide
  rw [compute_kpis_eq_ok _ _ _ _ _ hd] at hE
  rcases (summarize_eq_ok _ _ _ _ _).mp hE with ⟨mis, _, rfl⟩
  show (List.map (fun bb =>
    if 0 < sumValues (counterOf (brandAppearances
        ([wDupRec].map (enrichRecord "acme" ["acme"])))) then
      (lookupCount (counterOf (brandAppearances
          ([wDupRec].map (enrichRecord "acme" ["acme"])))) bb : ℚ)
        / (sumValues (counterOf (brandAppearances
            ([wDupRec].map (enrichRecord "acme" ["acme"])))) : ℚ) * 100
    else 0) ("acme" :: ["acme"])).sum = 200
  have h1 : brandAppearances ([wDupRec].map (enrichRecord "acme" ["acme"]))
      = ["acme"] := by decide
  rw [h1]
  have h2 : sumValues (counterOf ["acme"]) = 1 := by decide
  have h3 : lookupCount (counterOf ["acme"]) "acme" = 1 := by decide
  simp only [h2, h3, List.map_cons, List.map_nil, List.sum_cons,
    List.sum_nil]
  norm_num

/-- C8: compute_kpis is deterministic and idempotent — re-running it on
the record collection already enriched by a successful run yields the very
same summary. -/
theorem compute_kpis_idempotent (d : List Record) (m : List String)
    (b : String) (cs : List String) (s : Summary)
    (h : compute_kpis d m b cs = .ok (some s)) :
    compute_kpis s.analyzed_data m b cs = .ok (some s) := by
  have hd : d ≠ [] := compute_kpis_ok_ne_nil d m b cs s h
  rw [compute_kpis_eq_ok d m b cs s hd] at h
  rcases (summarize_eq_ok m b cs _ s).mp h with ⟨mis, hmis, rfl⟩
  have haz : (d.map (enrichRecord b cs)) ≠ [] := by
    intro e
    exact hd (List.map_eq_nil.mp e)
  show compute_kpis (d.map (enrichRecord b cs)) m b cs = _
  rw [compute_kpis_eq_ok _ _ _ _ _ haz, summarize_eq_ok]
  refine ⟨mis, ?_, ?_⟩
  · rw [map_enrich_idem]
    exact hmis
  · rw [map_enrich_idem]

/-- Witness for C8 at a concrete one-record collection. -/
theorem compute_kpis_idempotent_witness :
    ∃ s, compute_kpis wEight [] "beta" [] = .ok (some s)
      ∧ compute_kpis s.analyzed_data [] "beta" [] = .ok (some s) := by
  rcases compute_kpis_cases wEight [] "beta" [] (by decide)
    (by intro e; cases e; decide) with ⟨s, hE⟩
  exact ⟨s, hE, compute_kpis_idempotent wEight [] "beta" [] s hE⟩

/-- C9: a successful run returns as analyzed_data exactly the input
collection in its post-run state — every record enriched in place with
precisely the three derived fields sentiment, theme and mentioned_brands,
all other fields untouched. -/
theorem analyzed_data_frame (d : List Record) (m : List String)
    (b : String) (cs : List String) (s : Summary)
    (h : compute_kpis d m b cs = .ok (some s)) :
    s.analyzed_data = d.map (enrichRecord b cs)
    ∧ ∀ r ∈ d,
        (enrichRecord b cs r).text = r.text
        ∧ (enrichRecord b cs r).source = r.source
        ∧ (enrichRecord b cs r).likes = r.likes
        ∧ (enrichRecord b cs r).comments = r.comments
        ∧ (enrichRecord b cs r).reach = r.reach
        ∧ (enrichRecord b cs r).authority = r.authority
        ∧ (enrichRecord b cs r).extra = r.extra
        ∧ (enrichRecord b cs r).sentiment
            = some (analyze_sentiment_keywords r.text)
        ∧ (enrichRecord b cs r).theme
            = some (classifyTheme (toLowerStr (r.text.getD "")))
        ∧ (enrichRecord b cs r).mentioned_brands
            = some (mentionedBrands (b :: cs)
                (toLowerStr (r.text.getD ""))) := by
  have hd : d ≠ [] := compute_kpis_ok_ne_nil d m b cs s h
  rw [compute_kpis_eq_ok d m b cs s hd] at h
  rcases (summarize_eq_ok m b cs _ s).mp h with ⟨mis, _, rfl⟩
  exact ⟨rfl, fun r _ =>
    ⟨rfl, rfl, rfl, rfl, rfl, rfl, rfl, rfl, rfl, rfl⟩⟩

/-- Witness for C9 at a concrete one-record collection. -/
theorem analyzed_data_frame_witness :
    ∃ s, compute_kpis wNine [] "acme" [] = .ok (some s)
      ∧ s.analyzed_data = wNine.map (enrichRecord "acme" []) := by
  rcases compute_kpis_cases wNine [] "acme" [] (by decide)
    (by intro e; cases e; decide) with ⟨s, hE⟩
  exact ⟨s, hE, (analyzed_data_frame wNine [] "acme" [] s hE).1⟩

/-- C1 (amended): compute_kpis returns normally whenever no record holds a
string-valued authority — malformed likes, comments and reach are
recovered locally without an exception — and on the specification's reach
example (500, "not a number", missing) the returned reach is 500. A
string-valued authority on a favorably-classified record instead lets the
TypeError propagate (see the counterexample). -/
theorem malformed_numeric_recovery :
    (∀ (d : List Record) (m : List String) (b : String) (cs : List String),
      d.all authorityNotStr = true →
      ∃ out, compute_kpis d m b cs = .ok out)
    ∧ (compute_kpis wReach [] "acme" []).map (fun o => o.map Summary.reach)
        = .ok (some 500) := by
  constructor
  · intro d m b cs hauth
    refine compute_kpis_ok_of_mis d m b cs (misSum_ok_of_no_str _ _ ?_)
    intro v hv str
    unfold misVals at hv
    rcases List.mem_map.mp hv with ⟨er, her, rfl⟩
    rcases List.mem_filter.mp her with ⟨hmem, _⟩
    rcases List.mem_map.mp hmem with ⟨r, hr, rfl⟩
    rw [enrich_authority]
    have hnot : authorityNotStr r = true := by
      rw [List.all_eq_true] at hauth
      exact hauth r hr
    rcases ha : r.authority with _ | v2
    · simp
    · rcases v2 with n | s2 | _
      · simp
      · exfalso
        unfold authorityNotStr at hnot
        rw [ha] at hnot
        cases hnot
      · simp
  · decide

/-- Witness for C1's recovery part at a collection with a
coercion-failing likes field. -/
theorem malformed_numeric_recovery_witness :
    wOne.all authorityNotStr = true
    ∧ ∃ out, compute_kpis wOne [] "acme" [] = .ok out :=
  ⟨by decide, malformed_numeric_recovery.1 wOne [] "acme" [] (by decide)⟩

/-- C1 counterexample: a positive-classified record whose authority is the
string "high" makes compute_kpis raise instead of returning normally. -/
theorem authority_string_raises :
    wAuthRec.authority = some (Val.vStr "high")
    ∧ compute_kpis [wAuthRec] [] "acme" [] = .error () :=
  ⟨rfl, by decide⟩

/-- C10: a record with missing or empty text is processed without raising:
it is enriched with sentiment neutral, theme General News and an empty
mentioned_brands list (given non-empty brand names); adding such a record
never turns a succeeding run into a failing one; and it still counts
toward the sentiment and theme ratio denominators — its labels' entries
are present with value at least 100/len(records). -/
theorem textless_record_defaults (b : String) (cs : List String)
    (hb : b ≠ "") (hcs : ∀ c ∈ cs, c ≠ "") (r : Record)
    (hr : r.text = none ∨ r.text = some "") :
    (enrichRecord b cs r).sentiment = some "neutral"
    ∧ (enrichRecord b cs r).theme = some "General News"
    ∧ (enrichRecord b cs r).mentioned_brands = some []
    ∧ (∀ (d : List Record) (m : List String),
        (∃ out, compute_kpis d m b cs = .ok out) →
        ∃ out, compute_kpis (r :: d) m b cs = .ok out)
    ∧ (∀ (d : List Record) (m : List String) (s : Summary), r ∈ d →
        compute_kpis d m b cs = .ok (some s) →
        (∃ q, lookupQ s.sentiment_ratio "neutral" = some q
          ∧ 100 / (d.length : ℚ) ≤ q)
        ∧ (∃ q, lookupQ s.theme_ratio "General News" = some q
          ∧ 100 / (d.length : ℚ) ≤ q)) := by
  have htext : r.text.getD "" = "" := by
    rcases hr with h | h <;> rw [h] <;> rfl
  have hsent : analyze_sentiment_keywords r.text = "neutral" := by
    rcases hr with h | h <;> rw [h] <;> rfl
  have hlower : toLowerStr (r.text.getD "") = "" := by
    rw [htext]
    rfl
  have hthemeval : classifyTheme (toLowerStr (r.text.getD ""))
      = "General News" := by
    rw [hlower]
    decide
  have hment : mentionedBrands (b :: cs) (toLowerStr (r.text.getD ""))
      = [] := by
    rw [hlower]
    unfold mentionedBrands
    have hfil : (b :: cs).filter
        (fun bb => wordMatch (toLowerStr bb) "") = [] := by
      apply List.filter_eq_nil.mpr
      intro bb _
      rw [wordMatch_empty]
      simp
    rw [hfil]
    rfl
  refine ⟨by rw [enrich_sentiment, hsent], by rw [enrich_theme, hthemeval],
    by rw [enrich_mentioned, hment], ?_, ?_⟩
  · intro d m hout
    rcases hE : compute_kpis (r :: d) m b cs with e | o
    · exfalso
      cases e
      rcases (compute_kpis_error_iff _ _ _ _ _).mp hE with ⟨_, hmis⟩
      have hdrop : misVals ((r :: d).map (enrichRecord b cs))
          = misVals (d.map (enrichRecord b cs)) := by
        unfold misVals
        rw [List.map_cons]
        have hfb : ((enrichRecord b cs r).sentiment.getD "" = "positive"
            || (enrichRecord b cs r).sentiment.getD "" = "appreciation")
            = false := by
          rw [enrich_sentiment, hsent]
          decide
        simp only [List.filter_cons, hfb]
        simp
      rw [hdrop] at hmis
      rcases hout with ⟨out, hout⟩
      by_cases hd : d = []
      · subst hd
        rw [show misVals (List.map (enrichRecord b cs) ([] : List Record))
          = [] from rfl] at hmis
        exact absurd hmis (by decide)
      · have h2 := (compute_kpis_error_iff d m b cs ()).mpr ⟨hd, hmis⟩
        rw [h2] at hout
        cases hout
    · exact ⟨o, rfl⟩
  · intro d m s hrd h
    have hd : d ≠ [] := compute_kpis_ok_ne_nil d m b cs s h
    rw [compute_kpis_eq_ok d m b cs s hd] at h
    rcases (summarize_eq_ok m b cs _ s).mp h with ⟨mis, _, rfl⟩
    have hdlenpos : (0:ℚ) < (d.length : ℚ) := by
      have := List.length_pos.mpr hd
      exact_mod_cast this
    have hlenmap : ((d.map (enrichRecord b cs)).length : Nat) = d.length :=
      List.length_map _ _
    constructor
    · have hmemtone : "neutral" ∈ tonesOf (d.map (enrichRecord b cs)) := by
        unfold tonesOf
        rw [List.map_map]
        apply List.mem_map.mpr
        refine ⟨r, hrd, ?_⟩
        show (enrichRecord b cs r).sentiment.getD "" = "neutral"
        rw [enrich_sentiment, hsent]
        rfl
      show ∃ q, lookupQ (ratioList
          (counterOf (tonesOf (d.map (enrichRecord b cs))))
          (d.map (enrichRecord b cs)).length) "neutral" = some q
        ∧ 100 / (d.length : ℚ) ≤ q
      rw [lookupQ_ratioList _ _ _ hmemtone, hlenmap]
      refine ⟨_, rfl, ?_⟩
      have hcount : 0 < (tonesOf (d.map (enrichRecord b cs))).count
          "neutral" := List.count_pos_iff.mpr hmemtone
      have h1 : (1:ℚ) ≤ ((tonesOf (d.map (enrichRecord b cs))).count
          "neutral" : ℚ) := by
        exact_mod_cast hcount
      calc (100:ℚ) / (d.length : ℚ) = 1 * (100 / (d.length : ℚ)) := by ring
        _ ≤ ((tonesOf (d.map (enrichRecord b cs))).count "neutral" : ℚ)
            * (100 / (d.length : ℚ)) := by
              apply mul_le_mul_of_nonneg_right h1
              positivity
        _ = ((tonesOf (d.map (enrichRecord b cs))).count "neutral" : ℚ)
            / (d.length : ℚ) * 100 := by ring
    · have hmemtheme : "General News"
          ∈ themesOf (d.map (enrichRecord b cs)) := by
        unfold themesOf
        rw [List.map_map]
        apply List.mem_map.mpr
        refine ⟨r, hrd, ?_⟩
        show (enrichRecord b cs r).theme.getD "" = "General News"
        rw [enrich_theme, hthemeval]
        rfl
      show ∃ q, lookupQ (ratioList
          (counterOf (themesOf (d.map (enrichRecord b cs))))
          (d.map (enrichRecord b cs)).length) "General News" = some q
        ∧ 100 / (d.length : ℚ) ≤ q
      rw [lookupQ_ratioList _ _ _ hmemtheme, hlenmap]
      refine ⟨_, rfl, ?_⟩
      have hcount : 0 < (themesOf (d.map (enrichRecord b cs))).count
          "General News" := List.count_pos_iff.mpr hmemtheme
      have h1 : (1:ℚ) ≤ ((themesOf (d.map (enrichRecord b cs))).count
          "General News" : ℚ) := by
        exact_mod_cast hcount
      calc (100:ℚ) / (d.length : ℚ) = 1 * (100 / (d.length : ℚ)) := by ring
        _ ≤ ((themesOf (d.map (enrichRecord b cs))).count "General News" : ℚ)
            * (100 / (d.length : ℚ)) := by
              apply mul_le_mul_of_nonneg_right h1
              positivity
        _ = ((themesOf (d.map (enrichRecord b cs))).count "General News" : ℚ)
            / (d.length : ℚ) * 100 := by ring

/-- Witness for C10 at a one-record collection whose record has no text. -/
theorem textless_record_defaults_witness :
    (enrichRecord "acme" [] emptyRec).sentiment = some "neutral"
    ∧ (enrichRecord "acme" [] emptyRec).theme = some "General News"
    ∧ (enrichRecord "acme" [] emptyRec).mentioned_brands = some []
    ∧ ∃ s, compute_kpis wTen [] "acme" [] = .ok (some s)
      ∧ ∃ q, lookupQ s.sentiment_ratio "neutral" = some q
        ∧ 100 / (wTen.length : ℚ) ≤ q := by
  have h := textless_record_defaults "acme" [] (by decide)
    (by intro c hc; cases hc) emptyRec (Or.inl rfl)
  rcases compute_kpis_cases wTen [] "acme" [] (by decide)
    (by intro e; cases e; decide) with ⟨s, hE⟩
  refine ⟨h.1, h.2.1, h.2.2.1, s, hE, ?_⟩
  exact (h.2.2.2.2 wTen [] s (List.mem_singleton.mpr rfl) hE).1

/-- Witness for C2's word-boundary characterization at a concrete
keyword and text. -/
theorem sentiment_priority_cascade_witness :
    wordMatch "good" "good news" = true ↔ WordOccurs "good" "good news" :=
  sentiment_priority_cascade.2 "good" "good news" (by decide)

theorem dynamicStop_mem (base_stop : List String) (brand : String)
    (competitors : List String) (x : String) :
    x ∈ dynamicStop base_stop brand competitors ↔
      x ∈ base_stop ∨ x ∈ noise_stop ∨ x = toLowerStr brand
        ∨ x ∈ competitors.map toLowerStr ∨ x ∈ generic_stop := by
  unfold dynamicStop
  simp [List.mem_append, List.mem_cons]

theorem filteredTokens_spec (base_stop : List String) (all_text : String)
    (brand : String) (competitors : List String) :
    ∀ t ∈ filteredTokensOf base_stop all_text brand competitors,
      2 < t.length ∧ t.data.all Char.isAlpha = true
        ∧ t ∉ dynamicStop base_stop brand competitors := by
  intro t ht
  unfold filteredTokensOf at ht
  rcases List.mem_filter.mp ht with ⟨_, hcond⟩
  simp only [Bool.and_eq_true, Bool.not_eq_true', decide_eq_true_eq] at hcond
  refine ⟨hcond.1.1, hcond.1.2, ?_⟩
  intro hmem
  have hcontains : (dynamicStop base_stop brand
      competitors).contains t = true := by
    simpa [List.contains] using List.elem_iff.mpr hmem
  rw [hcontains] at hcond
  exact absurd hcond.2 (by simp)

theorem filteredTokens_noSpace (base_stop : List String)
    (all_text : String) (brand : String) (competitors : List String) :
    ∀ t ∈ filteredTokensOf base_stop all_text brand competitors,
      ' ' ∉ t.data := by
  intro t ht hsp
  have halpha := (filteredTokens_spec base_stop all_text brand
    competitors t ht).2.1
  rw [List.all_eq_true] at halpha
  exact absurd (halpha ' ' hsp) (by decide)

/-- C7 (amended): extract_keywords returns at most 10 (term, frequency)
pairs ranked by descending frequency; provided the brand name, every
competitor name, and every stopword is a single token (no blank inside),
no returned term is the lowercased brand name, a lowercased competitor
name, or a stopword; every returned term is either a surviving token
(lowercase corpus token, alphabetic, length > 2, frequency = its count
among surviving tokens) or a two-token phrase of contiguous surviving
tokens whose frequency is its occurrence count and is at least 2; and the
result is the empty list when no tokens survive filtering. -/
theorem extract_keywords_contract (base_stop : List String)
    (all_text brand : String) (competitors : List String)
    (hb : noSpace (toLowerStr brand))
    (hc : ∀ c ∈ competitors, noSpace (toLowerStr c))
    (hstop : ∀ w ∈ base_stop, noSpace w) :
    (extract_keywords base_stop all_text brand competitors).length ≤ 10
    ∧ (extract_keywords base_stop all_text brand competitors).Pairwise
        (fun p q => q.2 ≤ p.2)
    ∧ (∀ p ∈ extract_keywords base_stop all_text brand competitors,
        p.1 ≠ toLowerStr brand
        ∧ p.1 ∉ competitors.map toLowerStr
        ∧ p.1 ∉ base_stop ∧ p.1 ∉ noise_stop ∧ p.1 ∉ generic_stop)
    ∧ (∀ p ∈ extract_keywords base_stop all_text brand competitors,
        (p.1 ∈ filteredTokensOf base_stop all_text brand competitors
          ∧ 2 < p.1.length ∧ p.1.data.all Char.isAlpha = true
          ∧ p.2 = (filteredTokensOf base_stop all_text brand
              competitors).count p.1)
        ∨ (∃ a bb, p.1 = a ++ " " ++ bb
            ∧ (a, bb) ∈ bigramsOf (filteredTokensOf base_stop all_text
                brand competitors)
            ∧ p.2 = ((bigramsOf (filteredTokensOf base_stop all_text brand
                competitors)).map (fun q => q.1 ++ " " ++ q.2)).count p.1
            ∧ 2 ≤ p.2))
    ∧ (filteredTokensOf base_stop all_text brand competitors = [] →
        extract_keywords base_stop all_text brand competitors = []) := by
  have hext : extract_keywords base_stop all_text brand competitors
      = most_common 10
          (List.foldl (fun acc p => bumpBy p.1 p.2 acc)
            (counterOf (filteredTokensOf base_stop all_text brand
              competitors))
            (List.filter (fun p => 2 ≤ p.2)
              (counterOf (List.map (fun q => q.1 ++ " " ++ q.2)
                (bigramsOf (filteredTokensOf base_stop all_text brand
                  competitors)))))) := rfl
  have hJspace : ∀ x ∈ (bigramsOf (filteredTokensOf base_stop all_text
      brand competitors)).map (fun q => q.1 ++ " " ++ q.2),
      ' ' ∈ x.data := by
    intro x hx
    rcases List.mem_map.mp hx with ⟨q, _, rfl⟩
    have : (q.1 ++ " " ++ q.2).data = (q.1.data ++ [' ']) ++ q.2.data := by
      simp
    rw [this]
    simp
  have hBspace : ∀ p ∈ (counterOf ((bigramsOf (filteredTokensOf base_stop
      all_text brand competitors)).map
      (fun q => q.1 ++ " " ++ q.2))).filter (fun p => 2 ≤ p.2),
      ' ' ∈ p.1.data := by
    intro p hp
    have hp2 := (List.mem_filter.mp hp).1
    exact hJspace p.1 ((mem_keysOf_counterOf _ p.1).mp
      (List.mem_map_of_mem Prod.fst hp2))
  have hDisj : ∀ p ∈ (counterOf ((bigramsOf (filteredTokensOf base_stop
      all_text brand competitors)).map
      (fun q => q.1 ++ " " ++ q.2))).filter (fun p => 2 ≤ p.2),
      p.1 ∉ keysOf (counterOf (filteredTokensOf base_stop all_text brand
        competitors)) := by
    intro p hp hk
    exact filteredTokens_noSpace base_stop all_text brand competitors p.1
      ((mem_keysOf_counterOf _ p.1).mp hk) (hBspace p hp)
  have hBnodup : (keysOf ((counterOf ((bigramsOf (filteredTokensOf
      base_stop all_text brand competitors)).map
      (fun q => q.1 ++ " " ++ q.2))).filter (fun p => 2 ≤ p.2))).Nodup :=
    List.Nodup.sublist ((List.filter_sublist _).map Prod.fst)
      (keysNodup_counterOf _)
  have hcomb := foldl_bumpBy_append
    ((counterOf ((bigramsOf (filteredTokensOf base_stop all_text brand
      competitors)).map (fun q => q.1 ++ " " ++ q.2))).filter
      (fun p => 2 ≤ p.2))
    (counterOf (filteredTokensOf base_stop all_text brand competitors))
    hDisj hBnodup
  have hout : ∀ p ∈ extract_keywords base_stop all_text brand competitors,
      p ∈ counterOf (filteredTokensOf base_stop all_text brand competitors)
      ∨ p ∈ (counterOf ((bigramsOf (filteredTokensOf base_stop all_text
          brand competitors)).map (fun q => q.1 ++ " " ++ q.2))).filter
          (fun p => 2 ≤ p.2) := by
    intro p hp
    rw [hext] at hp
    have h2 := mem_most_common _ _ p hp
    rw [hcomb] at h2
    exact List.mem_append.mp h2
  refine ⟨?_, ?_, ?_, ?_, ?_⟩
  · rw [hext]
    exact most_common_length _ _
  · rw [hext]
    exact most_common_pairwise _ _
  · intro p hp
    rcases hout p hp with hU | hB
    · have hkey : p.1 ∈ filteredTokensOf base_stop all_text brand
          competitors := (mem_keysOf_counterOf _ p.1).mp
        (List.mem_map_of_mem Prod.fst hU)
      have hdyn := (filteredTokens_spec base_stop all_text brand
        competitors p.1 hkey).2.2
      rw [dynamicStop_mem] at hdyn
      push_neg at hdyn
      exact ⟨hdyn.2.2.1, hdyn.2.2.2.1, hdyn.1, hdyn.2.1, hdyn.2.2.2.2⟩
    · have hsp := hBspace p hB
      have hne : ∀ y : String, noSpace y → p.1 ≠ y := by
        intro y hy e
        rw [e] at hsp
        exact hy hsp
      refine ⟨hne _ hb, ?_, ?_, ?_, ?_⟩
      · intro hmem
        rcases List.mem_map.mp hmem with ⟨c, hcm, hce⟩
        exact hne _ (hc c hcm) hce.symm
      · intro hmem
        exact hne _ (hstop _ hmem) rfl

      · intro hmem
        exact hne _ ((show ∀ y ∈ noise_stop, noSpace y from by decide)
          _ hmem) rfl
      · intro hmem
        exact hne _ ((show ∀ y ∈ generic_stop, noSpace y from by decide)
          _ hmem) rfl
  · intro p hp
    rcases hout p hp with hU | hB
    · left
      have hkey : p.1 ∈ filteredTokensOf base_stop all_text brand
          competitors := (mem_keysOf_counterOf _ p.1).mp
        (List.mem_map_of_mem Prod.fst hU)
      have hspec := filteredTokens_spec base_stop all_text brand
        competitors p.1 hkey
      exact ⟨hkey, hspec.1, hspec.2.1, snd_of_mem_counterOf _ p hU⟩
    · right
      rcases List.mem_filter.mp hB with ⟨hBc, hge⟩
      have hkey : p.1 ∈ (bigramsOf (filteredTokensOf base_stop all_text
          brand competitors)).map (fun q => q.1 ++ " " ++ q.2) :=
        (mem_keysOf_counterOf _ p.1).mp (List.mem_map_of_mem Prod.fst hBc)
      rcases List.mem_map.mp hkey with ⟨q, hq, hq1⟩
      exact ⟨q.1, q.2, hq1.symm, by simpa using hq,
        snd_of_mem_counterOf _ p hBc, by simpa using hge⟩
  · intro hnil
    rw [hext, hnil]
    rfl

/-- Witness for C7 at a concrete corpus, brand and competitor list. -/
theorem extract_keywords_contract_witness :
    (extract_keywords englishStopSample "Zenith upgrades its mobile app"
      "Zenith" ["Access"]).length ≤ 10
    ∧ ∀ p ∈ extract_keywords englishStopSample
        "Zenith upgrades its mobile app" "Zenith" ["Access"],
        p.1 ≠ toLowerStr "Zenith" := by
  have h := extract_keywords_contract englishStopSample
    "Zenith upgrades its mobile app" "Zenith" ["Access"]
    (by decide) (by decide) (by decide)
  exact ⟨h.1, fun p hp => (h.2.2.1 p hp).1⟩

/-- C7 counterexample: with the two-token competitor name
"mobile banking", the output of extract_keywords contains the term
"mobile banking" — a term equal to a configured competitor name, which
the stopword filtering cannot remove because tokens never contain a
blank. -/
theorem bigram_competitor_term :
    ("mobile banking", 2) ∈ extract_keywords englishStopSample
        "mobile banking mobile banking" "acme" ["mobile banking"]
    ∧ "mobile banking" ∈ ["mobile banking"] := by
  exact ⟨by decide, by decide⟩
